import Mathlib

/-!
# Verification of the pk2 archive index engine

A shallow embedding of the pk2 library's archive-index core
(`src/archive.rs`, `src/filetime.rs`, `src/raw/block_chain.rs`,
`src/raw/block_manager.rs`) together with proofs about its behaviour.

Modelling conventions:

* Machine integers (`u64`, `u32`, `usize`) are modelled as `Nat`, with an
  explicit `% 2^w` at the points where Rust release builds wrap.
* Rust `Option<NonZeroU64>` next-block links are modelled as `Option Nat`
  (a stored zero corresponds to `none`).
* `Path` values are modelled as lists of already-parsed components, i.e.
  the output of Rust's `Path::components()` after `check_root` stripped the
  leading `/`.  `OsStr::to_str` never fails in this model (components carry
  `String`s), so the `NonUnicodePath` branches of the source are dead here.
* `HashMap<ChainIndex, PackBlockChain, NoHashHasherBuilder>` is modelled as
  an association list where `insert` conses a binding in front and `lookup`
  takes the first binding; this has exactly the map get/insert semantics of
  the Rust `HashMap`.
* Stream I/O: the positioned writes of the raw I/O layer are recorded in a
  write log, and `allocate_empty_block`'s seek-to-end is modelled by a
  `fileLen` field that each block allocation bumps by the block size.
-/

set_option autoImplicit false

namespace Pk2Spec

/-- Error kinds of the library (`error.rs`, spec §7). -/
inductive Error where
  | InvalidPath
  | NonUnicodePath
  | NotFound
  | ExpectedFile
  | ExpectedDirectory
  | AlreadyExists
  | InvalidChainIndex
  | InvalidKey
  | InvalidSignature
  | Corrupt
  | MalformedChain
  | TimestampOutOfRange
  | Io
  deriving DecidableEq, Repr

/-- `2^64`, the modulus of Rust `u64` arithmetic. -/
def U64 : Nat := 18446744073709551616

/-- `2^32`, the modulus of Rust `u32` arithmetic. -/
def U32 : Nat := 4294967296

/-- `PK2_FILE_ENTRY_SIZE` (constants.rs, spec §3): 128 bytes per entry. -/
def PK2_FILE_ENTRY_SIZE : Nat := 128

/-- `PK2_FILE_BLOCK_ENTRY_COUNT` (constants.rs, spec §3): 20 entries per block. -/
def PK2_FILE_BLOCK_ENTRY_COUNT : Nat := 20

/-- `PK2_FILE_BLOCK_SIZE` (constants.rs, spec §3): 2560 bytes per block. -/
def PK2_FILE_BLOCK_SIZE : Nat := PK2_FILE_ENTRY_SIZE * PK2_FILE_BLOCK_ENTRY_COUNT

/-- `PK2_ROOT_BLOCK` (constants.rs, spec §3): file offset 256 of the root chain. -/
def PK2_ROOT_BLOCK : Nat := 256

/-- `PK2_ROOT_BLOCK_VIRTUAL` (constants.rs, spec §3): sentinel chain id 0 for
the root directory handle. -/
def PK2_ROOT_BLOCK_VIRTUAL : Nat := 0

/-- `PK2_CURRENT_DIR_IDENT` (spec §3). -/
def PK2_CURRENT_DIR_IDENT : String := "."

/-- `PK2_PARENT_DIR_IDENT` (spec §3). -/
def PK2_PARENT_DIR_IDENT : String := ".."

/-- Modelled from the spec: `PackEntry` of `raw/entry.rs` (not under `src/`),
spec §3 "Entry": a tagged 128-byte record that is Empty, a Directory or a
File.  Every slot of the on-disk record carries the `next_block` field of the
chained-overflow scheme (the spec's chain invariants and
`PackEntry::next_block` usage in `block_manager.rs` and `archive.rs` require
it on all three variants, an Empty slot included).  Timestamps are omitted:
no property here mentions them. -/
inductive PackEntry where
  | empty (nextBlock : Option Nat)
  | directory (name : String) (childrenPosition : Nat) (nextBlock : Option Nat)
  | file (name : String) (position : Nat) (size : Nat) (nextBlock : Option Nat)
  deriving DecidableEq, Repr

namespace PackEntry

/-- Modelled from the spec: `PackEntry::default()` / a freshly zeroed slot. -/
def defaultEntry : PackEntry := .empty none

/-- Modelled from the spec: `PackEntry::name`, `None` for empty slots. -/
def name : PackEntry → Option String
  | .empty _ => none
  | .directory n _ _ => some n
  | .file n _ _ _ => some n

/-- Modelled from the spec: `PackEntry::next_block`. -/
def next_block : PackEntry → Option Nat
  | .empty nb => nb
  | .directory _ _ nb => nb
  | .file _ _ _ nb => nb

/-- Modelled from the spec: `PackEntry::set_next_block` (used by
`push_and_link` / `create_new_block`). -/
def set_next_block : PackEntry → Nat → PackEntry
  | .empty _, nc => .empty (some nc)
  | .directory n c _, nc => .directory n c (some nc)
  | .file n p s _, nc => .file n p s (some nc)

/-- Modelled from the spec: `PackEntry::is_empty`. -/
def is_empty : PackEntry → Bool
  | .empty _ => true
  | _ => false

/-- Modelled from the spec: `PackEntry::is_file`. -/
def is_file : PackEntry → Bool
  | .file _ _ _ _ => true
  | _ => false

/-- Modelled from the spec: `PackEntry::is_dir`. -/
def is_dir : PackEntry → Bool
  | .directory _ _ _ => true
  | _ => false

/-- Modelled from the spec: `PackEntry::as_directory` composed with
`DirectoryEntry::children_position` (the only use of `as_directory` in the
sources under verification). -/
def as_directory_children : PackEntry → Option Nat
  | .directory _ c _ => some c
  | _ => none

/-- Modelled from the spec: `DirectoryEntry::is_normal_link` — a directory
entry that is neither the `.` nor the `..` identifier. -/
def is_normal_link_dir : PackEntry → Bool
  | .directory n _ _ => n ≠ PK2_CURRENT_DIR_IDENT && n ≠ PK2_PARENT_DIR_IDENT
  | _ => false

/-- Modelled from the spec: `PackEntry::new_file(name, pos_data, size,
next_block)` (timestamps omitted, see `PackEntry`). -/
def new_file (n : String) (pos : Nat) (size : Nat) (nb : Option Nat) : PackEntry :=
  .file n pos size nb

/-- Modelled from the spec: `PackEntry::new_directory(name, pos_children,
next_block)`. -/
def new_directory (n : String) (posChildren : Nat) (nb : Option Nat) : PackEntry :=
  .directory n posChildren nb

/-- Modelled from the spec: `PackEntry::clear`, used by `delete_file` to
tombstone a slot.  The chain-continuation link survives clearing (the
`next_block` of a block's last entry is authoritative for the chain per
spec §3, so a cleared last slot must keep it). -/
def clear : PackEntry → PackEntry
  | e => .empty e.next_block

end PackEntry

/-- `PackBlock` (`raw/block_chain.rs`): a block owns its file offset and its
20 entries.  The fixed-size Rust array `[PackEntry; 20]` is a `List` here;
well-formed blocks have length 20. -/
structure PackBlock where
  offset : Nat
  entries : List PackEntry
  deriving DecidableEq, Repr

namespace PackBlock

/-- `PackBlock::new(offset)`: a freshly zeroed block at `offset`. -/
def new (offset : Nat) : PackBlock :=
  { offset := offset, entries := List.replicate PK2_FILE_BLOCK_ENTRY_COUNT PackEntry.defaultEntry }

/-- `PackBlock::get`. -/
def get (b : PackBlock) (i : Nat) : Option PackEntry :=
  b.entries.get? i

end PackBlock

/-- `PackBlockChain` (`raw/block_chain.rs`): the ordered blocks of one
directory. -/
structure PackBlockChain where
  blocks : List PackBlock
  deriving DecidableEq, Repr

namespace PackBlockChain

/-- `PackBlockChain::from_blocks`. -/
def from_blocks (blocks : List PackBlock) : PackBlockChain := ⟨blocks⟩

/-- `PackBlockChain::chain_index`: the offset of the first block.  Rust
indexes `blocks[0]` (chains are non-empty by construction,
`from_blocks` `debug_assert`s it); the empty case is given the junk value 0. -/
def chain_index (c : PackBlockChain) : Nat :=
  match c.blocks with
  | [] => 0
  | b :: _ => b.offset

/-- `PackBlockChain::file_offset_for_entry(idx)`:
`blocks.get(idx / 20).map(|b| b.offset + (128 * (idx % 20)) as u64)`, with
the `u64` addition wrapping as in a release build. -/
def file_offset_for_entry (c : PackBlockChain) (idx : Nat) : Option Nat :=
  (c.blocks.get? (idx / PK2_FILE_BLOCK_ENTRY_COUNT)).map
    (fun b => (b.offset + PK2_FILE_ENTRY_SIZE * (idx % PK2_FILE_BLOCK_ENTRY_COUNT)) % U64)

/-- `PackBlockChain::num_entries`. -/
def num_entries (c : PackBlockChain) : Nat :=
  c.blocks.length * PK2_FILE_BLOCK_ENTRY_COUNT

/-- `PackBlockChain::entries`: iteration in block-then-slot order
(`blocks.iter().flat_map(|block| &block.entries)`). -/
def entries (c : PackBlockChain) : List PackEntry :=
  c.blocks.flatMap PackBlock.entries

/-- `PackBlockChain::get`: `blocks.get(i / 20).and_then(|b| b.get(i % 20))`. -/
def get (c : PackBlockChain) (i : Nat) : Option PackEntry :=
  (c.blocks.get? (i / PK2_FILE_BLOCK_ENTRY_COUNT)).bind
    (fun b => b.get (i % PK2_FILE_BLOCK_ENTRY_COUNT))

/-- `Iterator::find` of `find_block_chain_index_of`:
`entries().find(|entry| entry.name() == Some(directory))`. -/
def find_entry_named (c : PackBlockChain) (directory : String) : Option PackEntry :=
  c.entries.find? (fun e => e.name == some directory)

/-- `PackBlockChain::find_block_chain_index_of(directory)`: linear scan by
name; `NotFound` if absent, `ExpectedDirectory` if present but not a
directory, otherwise the child's `children_position`. -/
def find_block_chain_index_of (c : PackBlockChain) (directory : String) : Except Error Nat :=
  match c.find_entry_named directory with
  | none => .error .NotFound
  | some e =>
    match e.as_directory_children with
    | some pos => .ok pos
    | none => .error .ExpectedDirectory

/-- In-place update `chain[idx] = e` (the `IndexMut` impl:
`&mut blocks[idx / 20][idx % 20]`).  Rust panics when `idx` is out of
range; the model leaves the chain unchanged there (no verified use is out of
range). -/
def set_entry (c : PackBlockChain) (idx : Nat) (e : PackEntry) : PackBlockChain :=
  match c.blocks.get? (idx / PK2_FILE_BLOCK_ENTRY_COUNT) with
  | none => c
  | some b =>
    ⟨c.blocks.set (idx / PK2_FILE_BLOCK_ENTRY_COUNT)
      { b with entries := b.entries.set (idx % PK2_FILE_BLOCK_ENTRY_COUNT) e }⟩

end PackBlockChain

/-! ## Windows FILETIME conversions (`src/filetime.rs`)

`SystemTime` values at or after the Unix epoch are represented by their
duration since the epoch in nanoseconds (`duration_since(UNIX_EPOCH)`,
`Duration::as_nanos`), a `Nat`. -/

/-- `FILETIME` (`filetime.rs`): two `u32` halves of a count of 100 ns
intervals since 1601-01-01 UTC. -/
structure FILETIME where
  dwLowDateTime : Nat
  dwHighDateTime : Nat
  deriving DecidableEq, Repr

/-- `FILETIME::MS_EPOCH`: the Unix epoch in FILETIME units. -/
def MS_EPOCH : Nat := 116444736000000000

/-- `impl From<SystemTime> for FILETIME`:
`ftime = (duration.as_nanos() / 100) as u64 + MS_EPOCH` (the `u128 → u64`
cast truncates and the `u64` addition wraps, hence the `% U64`), then the
split into `u32` halves `ftime as u32` and `(ftime >> 32) as u32`. -/
def FILETIME.from_systime (nanos : Nat) : FILETIME :=
  let ftime := (nanos / 100 % U64 + MS_EPOCH) % U64
  { dwLowDateTime := ftime % U32, dwHighDateTime := ftime / U32 % U32 }

/-- `FILETIME::into_systime`: rebuild
`ftime = (high as u64) << 32 | low as u64`, then
`ftime.checked_sub(MS_EPOCH)? * 100` nanoseconds past the epoch (the `u64`
multiplication wraps, hence the `% U64`). -/
def FILETIME.into_systime (ft : FILETIME) : Option Nat :=
  let ftime := ft.dwHighDateTime % U32 * U32 + ft.dwLowDateTime % U32
  if ftime < MS_EPOCH then none
  else some ((ftime - MS_EPOCH) * 100 % U64)

/-! ## The chain reader and BlockManager construction
(`src/raw/block_manager.rs`)

For these the backing stream is abstracted into a partial map from block
offsets to blocks: `read_block_at(file, offset)` yields `file offset`, with
`none` standing for the read or decode failure (`Io`/`Corrupt`) branch.

`BlockManager::read_chain_from_file_at` is a Rust `loop` with no bound on
the number of iterations, so it is embedded step-indexed: `read_chain_steps
file fuel offset blocks` runs at most `fuel` iterations of the loop and
returns `none` when the loop is still running after `fuel` iterations.
Likewise `BlockManager::new`'s work-stack loop becomes `block_manager_new_steps`. -/

/-- The abstract archive file: what `crate::io::read_block_at` returns at
each offset (`none` = the error branch). -/
def FileMap : Type := Nat → Option PackBlock

/-- `BlockManager::read_chain_from_file_at`, step-indexed.  One iteration
reads a block, appends it, and follows
`block.entries().last().and_then(PackEntry::next_block)`; the loop ends when
the last entry has no next block.  `none` = still looping after `fuel`
iterations. -/
def read_chain_steps (file : FileMap) :
    Nat → Nat → List PackBlock → Option (Except Error PackBlockChain)
  | 0, _, _ => none
  | fuel + 1, offset, blocks =>
    match file offset with
    | none => some (.error .Corrupt)
    | some block =>
      let nc := block.entries.getLast?.bind PackEntry.next_block
      let blocks := blocks ++ [block]
      match nc with
      | some nc => read_chain_steps file fuel nc blocks
      | none => some (.ok (PackBlockChain.from_blocks blocks))

/-- The child offsets a freshly read chain pushes onto the work stack of
`BlockManager::new`: `children_position` of every normal-link directory
entry, in entry order. -/
def chain_child_offsets (c : PackBlockChain) : List Nat :=
  c.entries.filterMap (fun e =>
    if e.is_normal_link_dir then e.as_directory_children else none)

/-- `BlockManager::new`, step-indexed.  The work stack is kept top-first
(`Vec::pop` takes the back, so `extend`ing with children in entry order puts
the *last* child on top).  Each iteration pops an offset, reads its chain
(with `fuel` as the chain reader's step bound as well), pushes the chain's
normal-link children and inserts the chain into the map.  `none` = still
running after `fuel` iterations. -/
def block_manager_new_steps (file : FileMap) :
    Nat → List Nat → List (Nat × PackBlockChain) →
    Option (Except Error (List (Nat × PackBlockChain)))
  | 0, _, _ => none
  | _ + 1, [], chains => some (.ok chains)
  | fuel + 1, offset :: stack, chains =>
    match read_chain_steps file (fuel + 1) offset [] with
    | none => none
    | some (.error e) => some (.error e)
    | some (.ok chain) =>
      block_manager_new_steps file fuel
        ((chain_child_offsets chain).reverse ++ stack) ((offset, chain) :: chains)

/-! ## In-memory archive state

An opened `Pk2` holds the `BlockManager` cache and the shared stream.  The
cache is the association list `chains` (see the module comment).  The stream
is represented by its length `fileLen` (only end-of-file allocation reads
it) and the log `writes` of positioned writes issued through the raw I/O
layer. -/

/-- One positioned write of the raw I/O layer (`write_block` /
`write_entry_at`). -/
inductive DiskWrite where
  | block (offset : Nat) (b : PackBlock)
  | entry (offset : Nat) (e : PackEntry)
  deriving DecidableEq, Repr

/-- The state of an opened `Pk2` archive. -/
structure Pk2State where
  chains : List (Nat × PackBlockChain)
  fileLen : Nat
  writes : List DiskWrite
  deriving DecidableEq, Repr

/-- Rust path components after `Path::components()` (the `Prefix`/`RootDir`
variants cannot occur after `check_root` strips the leading `/`). -/
inductive PathComp where
  | normal (s : String)
  | curDir
  | parentDir
  deriving DecidableEq, Repr

/-- `Component::as_os_str` rendered to a string (always unicode here). -/
def PathComp.ident : PathComp → String
  | .normal s => s
  | .curDir => PK2_CURRENT_DIR_IDENT
  | .parentDir => PK2_PARENT_DIR_IDENT

/-- A path relative to the archive root: the component list of the public
path after `check_root` stripped the leading `/`. -/
abbrev ArchivePath : Type := List PathComp

/-- `Path::file_name()` on a component list: the final component when it is
a `Normal` one. -/
def file_name (p : ArchivePath) : Option String :=
  match p.getLast? with
  | some (.normal s) => some s
  | _ => none

namespace BlockManager

/-- `BlockManager::get` / `HashMap::get`: first binding of the key. -/
def get (chains : List (Nat × PackBlockChain)) (k : Nat) : Option PackBlockChain :=
  (chains.find? (fun kc => kc.1 == k)).map (·.2)

/-- `BlockManager::insert` / `HashMap::insert`: the new binding shadows any
old one. -/
def insert (chains : List (Nat × PackBlockChain)) (k : Nat) (c : PackBlockChain) :
    List (Nat × PackBlockChain) :=
  (k, c) :: chains

/-- Mutation through `BlockManager::get_mut`: replace the value of the first
binding of `k` (the one `get` sees). -/
def modify (chains : List (Nat × PackBlockChain)) (k : Nat)
    (f : PackBlockChain → PackBlockChain) : List (Nat × PackBlockChain) :=
  match chains with
  | [] => []
  | (k', c) :: rest => if k' = k then (k', f c) :: rest else (k', c) :: modify rest k f

end BlockManager

/-- `Iterator::position(PackEntry::is_empty)` over a chain's entries:
the index of the first empty slot. -/
def position_is_empty : List PackEntry → Option Nat
  | [] => none
  | e :: es => if e.is_empty then some 0 else (position_is_empty es).map (· + 1)

/-- `entries().enumerate().find(|(_, entry)| entry.name() == name)` of
`resolve_path_to_entry_and_parent`. -/
def enumerate_find_name : List PackEntry → Option String → Option (Nat × PackEntry)
  | [], _ => none
  | e :: es, n =>
    if e.name == n then some (0, e)
    else (enumerate_find_name es n).map (fun ie => (ie.1 + 1, ie.2))

namespace BlockManager

/-- `BlockManager::resolve_path_to_block_chain_index_at`: fold the
components from `current_chain`; each component is looked up by its
identifier via `find_block_chain_index_of` (`.` and `..` resolve through
the like-named directory entries). -/
def resolve_path_to_block_chain_index_at
    (chains : List (Nat × PackBlockChain)) :
    Nat → ArchivePath → Except Error Nat
  | idx, [] => .ok idx
  | idx, comp :: rest =>
    match get chains idx with
    | none => .error .InvalidChainIndex
    | some chain =>
      match chain.find_block_chain_index_of comp.ident with
      | .ok i => resolve_path_to_block_chain_index_at chains i rest
      | .error e => .error e

/-- `BlockManager::resolve_path_to_entry_and_parent`: split off the last
component, resolve the prefix to the parent chain, then scan the parent for
the entry with that name.  Rust indexes `self.chains[&parent_index]`
(panicking when absent); the model returns `InvalidChainIndex` on that
branch, which no verified run reaches. -/
def resolve_path_to_entry_and_parent
    (chains : List (Nat × PackBlockChain)) (currentChain : Nat) (path : ArchivePath) :
    Except Error (Nat × Nat × PackEntry) :=
  match path.getLast? with
  | none => .error .InvalidPath
  | some c =>
    match resolve_path_to_block_chain_index_at chains currentChain path.dropLast with
    | .error e => .error e
    | .ok parentIndex =>
      match get chains parentIndex with
      | none => .error .InvalidChainIndex
      | some parent =>
        match enumerate_find_name parent.entries (some c.ident) with
        | none => .error .NotFound
        | some (idx, entry) => .ok (parentIndex, idx, entry)

/-- `BlockManager::validate_dir_path_until`: walk components while they
resolve; stop before the first `NotFound` `Normal` component; a `NotFound`
`..` escalates to `InvalidPath`; other errors propagate. -/
def validate_dir_path_until
    (chains : List (Nat × PackBlockChain)) :
    Nat → ArchivePath → Except Error (Nat × ArchivePath)
  | chain, [] => .ok (chain, [])
  | chain, comp :: rest =>
    match get chains chain with
    | none => .error .InvalidChainIndex
    | some c =>
      match c.find_block_chain_index_of comp.ident with
      | .ok i => validate_dir_path_until chains i rest
      | .error .NotFound =>
        if comp = .parentDir then .error .InvalidPath
        else .ok (chain, comp :: rest)
      | .error e => .error e

end BlockManager

/-! ## Raw I/O layer helpers used by the mutation path

`crate::io` is not under `src/`; these are modelled from the spec (§4.3)
and from their call sites in `archive.rs`. -/

/-- Modelled from the spec: `io::allocate_empty_block` (§4.3) — seek to
end-of-file, write a freshly zeroed block there, return its offset and the
block.  Writing at end-of-file extends the stream by one block size. -/
def allocate_empty_block (st : Pk2State) : (Nat × PackBlock) × Pk2State :=
  let offset := st.fileLen
  let block := PackBlock.new offset
  ((offset, block),
   { st with fileLen := st.fileLen + PK2_FILE_BLOCK_SIZE,
             writes := st.writes ++ [.block offset block] })

/-- Modelled from the spec: `io::write_chain_entry(chain, entry_index)`
(§4.3) — compute the entry's file offset from the chain and persist that
single entry.  The source unwraps the offset and the entry (in range at
every call site); out of range the model logs a write at offset 0. -/
def write_chain_entry (st : Pk2State) (c : PackBlockChain) (idx : Nat) : Pk2State :=
  { st with writes := st.writes ++
      [.entry ((c.file_offset_for_entry idx).getD 0) ((c.get idx).getD PackEntry.defaultEntry)] }

/-- Modelled from the spec: `PackBlockChain::push_and_link(offset, block)`
(§4.4, called in `create_entry_at`) — set the previous last entry's
`next_block` to the new block's offset and append the block to the
in-memory chain (persisting is the caller's job).  It agrees with the
in-source `create_new_block` (`block_chain.rs`), which performs the same
link-then-push on `self[num_entries() - 1]`. -/
def PackBlockChain.push_and_link (c : PackBlockChain) (offset : Nat) (b : PackBlock) :
    PackBlockChain :=
  let lastIdx := c.num_entries - 1
  let c' :=
    match c.get lastIdx with
    | some e => c.set_entry lastIdx (e.set_next_block offset)
    | none => c
  ⟨c'.blocks ++ [b]⟩

/-- Modelled from the spec: `io::allocate_new_block_chain(stream,
parent_chain, dir_name, entry_idx_in_parent)` (§4.3): allocate a block at
end-of-file whose slot 0 is `.` pointing at itself and slot 1 is `..`
pointing at the parent's first block, persist it, then write the directory
entry `dir_name → new offset` into the parent at `entry_idx_in_parent`
(keeping that slot's chain-continuation link) and persist that entry.
Returns the new one-block chain.  `parentKey` is the map key under which
the caller's `&mut` borrow of the parent lives. -/
def allocate_new_block_chain (st : Pk2State) (parentKey : Nat) (parent : PackBlockChain)
    (dirName : String) (entryIdx : Nat) : Pk2State × PackBlockChain :=
  let offset := st.fileLen
  let b : PackBlock :=
    { offset := offset,
      entries :=
        PackEntry.new_directory PK2_CURRENT_DIR_IDENT offset none ::
        PackEntry.new_directory PK2_PARENT_DIR_IDENT parent.chain_index none ::
        List.replicate (PK2_FILE_BLOCK_ENTRY_COUNT - 2) PackEntry.defaultEntry }
  let newChain := PackBlockChain.from_blocks [b]
  let oldEntry := (parent.get entryIdx).getD PackEntry.defaultEntry
  let parent' := parent.set_entry entryIdx
    (PackEntry.new_directory dirName offset oldEntry.next_block)
  let st1 :=
    { st with fileLen := st.fileLen + PK2_FILE_BLOCK_SIZE,
              writes := st.writes ++ [.block offset b],
              chains := BlockManager.modify st.chains parentKey (fun _ => parent') }
  (write_chain_entry st1 parent' entryIdx, newChain)

/-! ## The archive facade (`src/archive.rs`) -/

/-- `Pk2::get_entry`: look the chain up in the `BlockManager`, then the
entry in the chain. -/
def get_entry (st : Pk2State) (chain : Nat) (idx : Nat) : Option PackEntry :=
  (BlockManager.get st.chains chain).bind (fun c => c.get idx)

/-- Mutation through `Pk2::get_entry_mut`: replace the entry at `idx` of
the chain stored under `chain`. -/
def set_entry_state (st : Pk2State) (chain : Nat) (idx : Nat) (e : PackEntry) : Pk2State :=
  { st with chains := BlockManager.modify st.chains chain (fun c => c.set_entry idx e) }

/-- `Pk2::open_file` (and `Pk2::open_file_mut`, identical up to the handle
type): resolve to `(parent chain, entry index, entry)`, require a file-kind
entry, hand out the `(chain, entry index)` pair the `File` handle wraps. -/
def open_file (st : Pk2State) (path : ArchivePath) : Except Error (Nat × Nat) :=
  match BlockManager.resolve_path_to_entry_and_parent st.chains PK2_ROOT_BLOCK path with
  | .error e => .error e
  | .ok (chain, idx, entry) =>
    if entry.is_file then .ok (chain, idx) else .error .ExpectedFile

/-- `Pk2::open_file_mut`: same resolution and check as `open_file`. -/
def open_file_mut (st : Pk2State) (path : ArchivePath) : Except Error (Nat × Nat) :=
  match BlockManager.resolve_path_to_entry_and_parent st.chains PK2_ROOT_BLOCK path with
  | .error e => .error e
  | .ok (chain, idx, entry) =>
    if entry.is_file then .ok (chain, idx) else .error .ExpectedFile

/-- `Pk2::open_directory`: resolve and require a directory-kind entry; the
`InvalidPath` of an empty (root) path is caught and yields the virtual root
handle `(PK2_ROOT_BLOCK_VIRTUAL, 0)`. -/
def open_directory (st : Pk2State) (path : ArchivePath) : Except Error (Nat × Nat) :=
  match BlockManager.resolve_path_to_entry_and_parent st.chains PK2_ROOT_BLOCK path with
  | .ok (chain, idx, entry) =>
    if entry.is_dir then .ok (chain, idx) else .error .ExpectedDirectory
  | .error .InvalidPath => .ok (PK2_ROOT_BLOCK_VIRTUAL, 0)
  | .error e => .error e

/-- `Pk2::delete_file`: resolve (mutably), require a file, clear the
in-memory entry, then persist the cleared entry.  `ioFails` injects the
stream-write failure of `write_chain_entry`; the Rust `?` then returns
`Err(Io)` while `self` keeps the already-mutated `BlockManager`.  (The
`get_chain(..).unwrap()` of the write is modelled as `InvalidChainIndex`;
resolution just succeeded through the same key, so the branch is dead.) -/
def delete_file (st : Pk2State) (path : ArchivePath) (ioFails : Bool) :
    Except Error Unit × Pk2State :=
  match BlockManager.resolve_path_to_entry_and_parent st.chains PK2_ROOT_BLOCK path with
  | .error e => (.error e, st)
  | .ok (chainIndex, entryIdx, entry) =>
    if entry.is_file then
      let st1 := set_entry_state st chainIndex entryIdx entry.clear
      if ioFails then (.error .Io, st1)
      else
        match BlockManager.get st1.chains chainIndex with
        | none => (.error .InvalidChainIndex, st1)
        | some chain => (.ok (), write_chain_entry st1 chain entryIdx)
    else (.error .ExpectedFile, st)

/-- The `while let Some(component) = components.next()` loop of
`Pk2::create_entry_at`, operating on the fork point returned by
`validate_dir_path_until`.  A `Normal` component finds the first empty slot
of the current chain (appending, linking and persisting a fresh block when
the chain is full); a non-terminal component then allocates and inserts a
new child chain for the directory, a terminal one returns the slot.
Exhausting the components without a terminal `Normal` is `AlreadyExists`. -/
def create_entry_at_loop : Pk2State → Nat → ArchivePath → Except Error (Pk2State × Nat × Nat)
  | _, _, [] => .error .AlreadyExists
  | st, cur, .curDir :: rest => create_entry_at_loop st cur rest
  | st, cur, .parentDir :: rest =>
    (match BlockManager.get st.chains cur with
     | none => .error .InvalidChainIndex
     | some chain =>
       match chain.find_block_chain_index_of PK2_PARENT_DIR_IDENT with
       | .ok i => create_entry_at_loop st i rest
       | .error e => .error e)
  | st, cur, .normal p :: rest =>
    (match BlockManager.get st.chains cur with
     | none => .error .InvalidChainIndex
     | some chain =>
       let found :=
         match position_is_empty chain.entries with
         | some idx => (st, chain, idx)
         | none =>
           let ((offset, block), st1) := allocate_empty_block st
           let chainEntryIdx := chain.num_entries
           let chain1 := chain.push_and_link offset block
           let st2 := { st1 with chains := BlockManager.modify st1.chains cur (fun _ => chain1) }
           let st3 := write_chain_entry st2 chain1 (chainEntryIdx - 1)
           (st3, chain1, chainEntryIdx)
       match found, rest with
       | (st', chain', chainEntryIdx), [] => .ok (st', chain'.chain_index, chainEntryIdx)
       | (st', chain', chainEntryIdx), _ :: _ =>
         let (st'', newChain) := allocate_new_block_chain st' cur chain' p chainEntryIdx
         let newIndex := newChain.chain_index
         let st3 := { st'' with chains := BlockManager.insert st''.chains newIndex newChain }
         create_entry_at_loop st3 newIndex rest)

/-- `Pk2::create_entry_at`: find the fork point with
`validate_dir_path_until`, then run the creation loop from there. -/
def create_entry_at (st : Pk2State) (chain : Nat) (path : ArchivePath) :
    Except Error (Pk2State × Nat × Nat) :=
  match BlockManager.validate_dir_path_until st.chains chain path with
  | .error e => .error e
  | .ok (cur, comps) => create_entry_at_loop st cur comps

/-- `Pk2::create_file`: take the path's file name, create the entry slot
along the path, then overwrite that slot in memory with
`PackEntry::new_file(file_name, 0, 0, entry.next_block())` — keeping the
slot's chain-continuation link.  Returns the `(chain, entry index)` pair the
`FileMut` handle wraps, along with the new state.  (The
`get_entry_mut(..).unwrap()` is modelled as `InvalidChainIndex`; the slot
returned by `create_entry_at` always exists.) -/
def create_file (st : Pk2State) (path : ArchivePath) :
    Except Error (Pk2State × Nat × Nat) :=
  match file_name path with
  | none => .error .InvalidPath
  | some fname =>
    match create_entry_at st PK2_ROOT_BLOCK path with
    | .error e => .error e
    | .ok (st1, chain, entryIdx) =>
      match get_entry st1 chain entryIdx with
      | none => .error .InvalidChainIndex
      | some e =>
        .ok (set_entry_state st1 chain entryIdx
               (PackEntry.new_file fname 0 0 e.next_block), chain, entryIdx)

/-! ## `Pk2::for_each_file` (`archive.rs`)

The callback is modelled as a collector: the result is the list of the
`relative_path` arguments passed to `cb`, each a component list whose last
component is the file's name (the source pushes the file name, invokes
`cb`, and pops).  `Directory::name`/`Directory::entries` live in the
missing `archive/fs.rs`; they are modelled from the spec (§4.7, §6): a
directory handle exposes its entry's name and iterates its own chain's
entries in slot order, yielding the files and the normal-link
subdirectories (`.`/`..`/empty slots are not yielded), and the virtual root
handle iterates the root chain. -/

/-- The in-memory stand-in for an `archive::fs::Directory` handle inside the
traversal: its name and the chain it iterates. -/
structure DirHandle where
  name : String
  chain : Nat
  deriving DecidableEq, Repr

/-- One item of `Directory::entries`. -/
inductive DirEntryView where
  | dir (name : String) (chain : Nat)
  | file (name : String)
  deriving DecidableEq, Repr

/-- Modelled from the spec: `Directory::entries` (missing `archive/fs.rs`) —
the directory's chain entries in slot order, files and normal-link
subdirectories only. -/
def dir_entries_of_chain (st : Pk2State) (chain : Nat) : List DirEntryView :=
  match BlockManager.get st.chains chain with
  | none => []
  | some c =>
    c.entries.filterMap (fun e =>
      match e with
      | .directory n pos _ =>
        if n ≠ PK2_CURRENT_DIR_IDENT ∧ n ≠ PK2_PARENT_DIR_IDENT then some (.dir n pos) else none
      | .file n _ _ _ => some (.file n)
      | .empty _ => none)

/-- The `while let Some(dir) = stack.pop()` loop of `for_each_file`,
step-indexed (`none` = out of fuel).  The stack is top-first (`Vec::pop`
takes the back, so the dirs pushed while scanning a directory end up on top
in reverse slot order).  Each iteration pushes the popped directory's name
onto the relative path (except on the very first iteration), collects
`path ++ [file name]` for each file entry in slot order, pushes the
subdirectory handles, and pops one path component only when the directory
contained no subdirectory. -/
def for_each_file_loop (st : Pk2State) :
    Nat → List String → List DirHandle → Bool → List (List String) →
    Option (List (List String))
  | 0, _, _, _, _ => none
  | _ + 1, _, [], _, acc => some acc
  | fuel + 1, path, dir :: stack, firstIteration, acc =>
    let path := if firstIteration then path else path ++ [dir.name]
    let entries := dir_entries_of_chain st dir.chain
    let newDirs := entries.filterMap (fun e =>
      match e with | .dir n c => some (DirHandle.mk n c) | .file _ => none)
    let fileNames := entries.filterMap (fun e =>
      match e with | .file n => some n | .dir _ _ => none)
    let acc := acc ++ fileNames.map (fun n => path ++ [n])
    let filesOnly := newDirs.isEmpty
    let path := if filesOnly then path.dropLast else path
    for_each_file_loop st fuel path (newDirs.reverse ++ stack) false acc

/-- `Pk2::for_each_file(base, cb)`: open the base directory, seed the stack
with its handle and an empty relative path, run the loop.  Returns the list
of relative paths passed to `cb` (innermost `Option` is the step bound). -/
def for_each_file (st : Pk2State) (base : ArchivePath) (fuel : Nat) :
    Except Error (Option (List (List String))) :=
  match open_directory st base with
  | .error e => .error e
  | .ok (chain, idx) =>
    let dirChain :=
      if chain = PK2_ROOT_BLOCK_VIRTUAL then PK2_ROOT_BLOCK
      else ((get_entry st chain idx).bind PackEntry.as_directory_children).getD 0
    let name := ((get_entry st chain idx).bind PackEntry.name).getD ""
    .ok (for_each_file_loop st fuel [] [⟨name, dirChain⟩] true [])

/-! ## Concrete archive states used as test inputs

`freshState` is the state right after `create_new` on an empty stream: one
root chain at offset 256 whose entry 0 is the `.` directory pointing at
itself.  `sampleState` additionally holds one file `a` in the root.  The
file length is 256 (header) + 2560 (root block). -/

/-- The root block written by `Pk2::_create_impl`. -/
def freshRootBlock : PackBlock :=
  { offset := PK2_ROOT_BLOCK,
    entries := PackEntry.new_directory PK2_CURRENT_DIR_IDENT PK2_ROOT_BLOCK none ::
      List.replicate 19 PackEntry.defaultEntry }

/-- A freshly created archive. -/
def freshState : Pk2State :=
  { chains := [(PK2_ROOT_BLOCK, ⟨[freshRootBlock]⟩)], fileLen := 2816, writes := [] }

/-- A root block holding `.` and a file named `a`. -/
def sampleRootBlock : PackBlock :=
  { offset := PK2_ROOT_BLOCK,
    entries := PackEntry.new_directory PK2_CURRENT_DIR_IDENT PK2_ROOT_BLOCK none ::
      PackEntry.new_file "a" 0 0 none ::
      List.replicate 18 PackEntry.defaultEntry }

/-- An archive holding one file `/a`. -/
def sampleState : Pk2State :=
  { chains := [(PK2_ROOT_BLOCK, ⟨[sampleRootBlock]⟩)], fileLen := 2816, writes := [] }

/-! ## Auxiliary definitions used by the claim proofs

Concrete archive files and states serving as test inputs, and the
invariant/preservation predicates of the C7 development. -/

/-- A root block whose last entry's `next_block` points back at the root
block itself: on disk, 19 zeroed entries and a 20th whose `next_block`
field is 256. -/
def c1LoopBlock : PackBlock :=
  { offset := PK2_ROOT_BLOCK,
    entries := List.replicate 19 PackEntry.defaultEntry ++ [PackEntry.empty (some PK2_ROOT_BLOCK)] }

/-- A maliciously crafted archive file: the root block links to itself. -/
def c1LoopFile : FileMap :=
  fun offset => if offset = PK2_ROOT_BLOCK then some c1LoopBlock else none

/-- A root block with two directory entries `d1` and `d2` both claiming the
child chain at offset 512. -/
def c6RootBlock : PackBlock :=
  { offset := PK2_ROOT_BLOCK,
    entries := PackEntry.new_directory PK2_CURRENT_DIR_IDENT PK2_ROOT_BLOCK none ::
      PackEntry.new_directory "d1" 512 none ::
      PackEntry.new_directory "d2" 512 none ::
      List.replicate 17 PackEntry.defaultEntry }

/-- The child block at 512 (a directory chain with `.` and `..`). -/
def c6ChildBlock : PackBlock :=
  { offset := 512,
    entries := PackEntry.new_directory PK2_CURRENT_DIR_IDENT 512 none ::
      PackEntry.new_directory PK2_PARENT_DIR_IDENT PK2_ROOT_BLOCK none ::
      List.replicate 18 PackEntry.defaultEntry }

/-- An archive file in which two directories claim the same child offset. -/
def c6DupFile : FileMap :=
  fun offset =>
    if offset = PK2_ROOT_BLOCK then some c6RootBlock
    else if offset = 512 then some c6ChildBlock
    else none

/-- Discriminator: did `BlockManager::new` finish successfully? -/
def bm_new_is_ok : Option (Except Error (List (Nat × PackBlockChain))) → Bool
  | some (.ok _) => true
  | _ => false

/-- An archive for C4: the root holds directories `A` (with file `g`) and
`B`; `B` holds `C`; `C` holds file `f`. -/
def c4State : Pk2State :=
  { chains :=
      [(PK2_ROOT_BLOCK,
        ⟨[{ offset := PK2_ROOT_BLOCK,
            entries := PackEntry.new_directory PK2_CURRENT_DIR_IDENT PK2_ROOT_BLOCK none ::
              PackEntry.new_directory "A" 512 none ::
              PackEntry.new_directory "B" 768 none ::
              List.replicate 17 PackEntry.defaultEntry }]⟩),
       (512,
        ⟨[{ offset := 512,
            entries := PackEntry.new_directory PK2_CURRENT_DIR_IDENT 512 none ::
              PackEntry.new_directory PK2_PARENT_DIR_IDENT PK2_ROOT_BLOCK none ::
              PackEntry.new_file "g" 0 0 none ::
              List.replicate 17 PackEntry.defaultEntry }]⟩),
       (768,
        ⟨[{ offset := 768,
            entries := PackEntry.new_directory PK2_CURRENT_DIR_IDENT 768 none ::
              PackEntry.new_directory PK2_PARENT_DIR_IDENT PK2_ROOT_BLOCK none ::
              PackEntry.new_directory "C" 1024 none ::
              List.replicate 17 PackEntry.defaultEntry }]⟩),
       (1024,
        ⟨[{ offset := 1024,
            entries := PackEntry.new_directory PK2_CURRENT_DIR_IDENT 1024 none ::
              PackEntry.new_directory PK2_PARENT_DIR_IDENT 768 none ::
              PackEntry.new_file "f" 0 0 none ::
              List.replicate 17 PackEntry.defaultEntry }]⟩)],
    fileLen := 10496, writes := [] }

/-- All blocks of a list carry exactly 20 entries. -/
def BlocksFull (bs : List PackBlock) : Prop :=
  ∀ b ∈ bs, b.entries.length = PK2_FILE_BLOCK_ENTRY_COUNT

/-- A chain all of whose blocks are full (the shape every chain read from
or written to a well-formed archive has). -/
def ChainFull (c : PackBlockChain) : Prop := BlocksFull c.blocks

/-- What name resolution sees of one entry. -/
def entry_view (e : PackEntry) : Option String × Option Nat :=
  (e.name, e.as_directory_children)

/-- The invariants of an archive state that `BlockManager::new` establishes
and every mutation maintains: each cached chain is keyed by its first-block
offset, is non-empty, has full blocks, and starts strictly before the
current end of file (the freshness guarantee for end-of-file allocation). -/
structure WFState (st : Pk2State) : Prop where
  full : ∀ kc ∈ st.chains, ChainFull kc.2
  index_eq : ∀ kc ∈ st.chains, kc.2.chain_index = kc.1
  nonempty : ∀ kc ∈ st.chains, kc.2.blocks ≠ []
  keys_lt : ∀ kc ∈ st.chains, kc.1 < st.fileLen

/-- Successful `resolve_path_to_block_chain_index_at` verdicts carry over
from `ch` to `ch'`. -/
def ResolveOkPreserved (ch ch' : List (Nat × PackBlockChain)) : Prop :=
  ∀ a q b, BlockManager.resolve_path_to_block_chain_index_at ch a q = .ok b →
    BlockManager.resolve_path_to_block_chain_index_at ch' a q = .ok b

/-- Successful name lookups carry over from chain `c` to chain `c'`. -/
def LookupOkPreserved (c c' : PackBlockChain) : Prop :=
  ∀ s r, c.find_block_chain_index_of s = .ok r → c'.find_block_chain_index_of s = .ok r

/-- A component as produced by Rust's `Path::components()` for an ordinary
name: a `Normal` whose text is neither `.` nor `..` (the parser maps those
to `CurDir`/`ParentDir`, never to `Normal`). -/
def GoodComp (c : PathComp) : Prop :=
  ∃ s, c = .normal s ∧ s ≠ PK2_CURRENT_DIR_IDENT ∧ s ≠ PK2_PARENT_DIR_IDENT

def GoodPath (p : ArchivePath) : Prop := ∀ c ∈ p, GoodComp c

/-- The last identifier of a path (the file name for a `GoodPath`). -/
def last_ident (p : ArchivePath) : String :=
  match p.getLast? with
  | some c => c.ident
  | none => ""

/-- What one run of `create_entry_at_loop` on a non-empty all-`Normal`
remainder guarantees: it succeeds; well-formedness, old resolutions and the
file-length lower bound are maintained; the remainder minus its final
component resolves (in the final state) from the fork chain to the returned
chain; and the returned slot of that chain is nameless with the final
component's name absent from the whole chain. -/
def LoopSpecHolds (rest : ArchivePath) : Prop :=
  ∀ (comp : PathComp) (st : Pk2State) (cur : Nat) (chain : PackBlockChain),
    WFState st →
    GoodPath (comp :: rest) →
    BlockManager.get st.chains cur = some chain →
    chain.find_entry_named comp.ident = none →
    ∃ stF kF iF,
      create_entry_at_loop st cur (comp :: rest) = .ok (stF, kF, iF) ∧
      WFState stF ∧
      ResolveOkPreserved st.chains stF.chains ∧
      st.fileLen ≤ stF.fileLen ∧
      BlockManager.resolve_path_to_block_chain_index_at stF.chains cur
        ((comp :: rest).dropLast) = .ok kF ∧
      ∃ chF eF,
        BlockManager.get stF.chains kF = some chF ∧
        chF.find_entry_named (last_ident (comp :: rest)) = none ∧
        iF < chF.num_entries ∧
        chF.entries.get? iF = some eF ∧
        eF.name = none

/-- The state produced by the chain-is-full branch of the loop: a zeroed
block appended at end-of-file, the chain linked to it in the cache, the
previous last entry persisted. -/
def append_slot_state (st : Pk2State) (cur : Nat) (chain : PackBlockChain) : Pk2State :=
  write_chain_entry
    { st with
        fileLen := st.fileLen + PK2_FILE_BLOCK_SIZE,
        writes := st.writes ++ [DiskWrite.block st.fileLen (PackBlock.new st.fileLen)],
        chains := BlockManager.modify st.chains cur
          (fun _ => chain.push_and_link st.fileLen (PackBlock.new st.fileLen)) }
    (chain.push_and_link st.fileLen (PackBlock.new st.fileLen)) (chain.num_entries - 1)

/-! ## C8 — chain-index arithmetic -/

/-- C8: for a chain of `k` blocks and `i < 20·k`,
`file_offset_for_entry i = blocks[i/20].offset + 128·(i % 20)` (whenever
that `u64` sum does not overflow), and for `20·k ≤ i` it is `none`. -/
theorem c8_file_offset_for_entry (c : PackBlockChain) (i : Nat) :
    (∀ b, c.blocks.get? (i / PK2_FILE_BLOCK_ENTRY_COUNT) = some b →
      b.offset + PK2_FILE_ENTRY_SIZE * (i % PK2_FILE_BLOCK_ENTRY_COUNT) < U64 →
      c.file_offset_for_entry i =
        some (b.offset + PK2_FILE_ENTRY_SIZE * (i % PK2_FILE_BLOCK_ENTRY_COUNT))) ∧
    (PK2_FILE_BLOCK_ENTRY_COUNT * c.blocks.length ≤ i →
      c.file_offset_for_entry i = none) := by
  constructor
  · intro b hb hlt
    unfold PackBlockChain.file_offset_for_entry
    rw [hb]
    simp [Nat.mod_eq_of_lt hlt]
  · intro hge
    unfold PackBlockChain.file_offset_for_entry
    have : c.blocks.length ≤ i / PK2_FILE_BLOCK_ENTRY_COUNT := by
      rw [Nat.le_div_iff_mul_le (by decide : 0 < PK2_FILE_BLOCK_ENTRY_COUNT)]
      exact le_trans (le_of_eq (Nat.mul_comm _ _)) hge
    rw [List.get?_eq_none.mpr this]
    rfl

/-- Witness for C8 at a one-block chain: entry 5 lives at `256 + 128·5` and
entry 40 is out of range. -/
theorem c8_file_offset_for_entry_witness :
    PackBlockChain.file_offset_for_entry ⟨[PackBlock.new 256]⟩ 5 = some 896 ∧
    PackBlockChain.file_offset_for_entry ⟨[PackBlock.new 256]⟩ 40 = none :=
  ⟨(c8_file_offset_for_entry ⟨[PackBlock.new 256]⟩ 5).1 (PackBlock.new 256) rfl (by decide),
   (c8_file_offset_for_entry ⟨[PackBlock.new 256]⟩ 40).2 (by decide)⟩

/-! ## C5 — FILETIME round-trip -/

/-- C5 counterexample: one nanosecond past the Unix epoch is ≥ the epoch,
yet the round-trip collapses it to the epoch itself (`nanos / 100`
truncates), so `from_filetime(to_filetime(t)) ≠ t`. -/
theorem c5_roundtrip_counterexample :
    FILETIME.into_systime (FILETIME.from_systime 1) = some 0 ∧
    FILETIME.into_systime (FILETIME.from_systime 1) ≠ some 1 := by
  constructor
  · rfl
  · intro h
    rw [show FILETIME.into_systime (FILETIME.from_systime 1) = some 0 from rfl] at h
    exact absurd (Option.some.inj h) (by decide)

/-- C5 amended: the round-trip is exact on every time at or after the epoch
whose nanosecond count is a multiple of 100 (the FILETIME resolution) and
representable in the `u64` arithmetic of the conversion. -/
theorem c5_filetime_roundtrip (nanos : Nat) (hmod : nanos % 100 = 0) (hlt : nanos < U64) :
    FILETIME.into_systime (FILETIME.from_systime nanos) = some nanos := by
  have hq : nanos / 100 % U64 = nanos / 100 :=
    Nat.mod_eq_of_lt (lt_of_le_of_lt (Nat.div_le_self _ _) hlt)
  have hqlt : nanos / 100 + MS_EPOCH < U64 := by
    have h1 : nanos / 100 ≤ (U64 - 1) / 100 :=
      Nat.div_le_div_right (by omega)
    have h2 : (U64 - 1) / 100 + MS_EPOCH < U64 := by decide
    omega
  have hF : (nanos / 100 % U64 + MS_EPOCH) % U64 = nanos / 100 + MS_EPOCH := by
    rw [hq]
    exact Nat.mod_eq_of_lt hqlt
  have hdivlt : (nanos / 100 + MS_EPOCH) / U32 < U32 := by
    rw [Nat.div_lt_iff_lt_mul (by decide : 0 < U32)]
    calc nanos / 100 + MS_EPOCH < U64 := hqlt
    _ = U32 * U32 := by decide
  have hmodmod : ∀ a : Nat, a % U32 % U32 = a % U32 := fun a => Nat.mod_mod_of_dvd a dvd_rfl
  have hrebuild : (nanos / 100 + MS_EPOCH) / U32 * U32 + (nanos / 100 + MS_EPOCH) % U32 =
      nanos / 100 + MS_EPOCH := by
    rw [Nat.mul_comm]
    exact Nat.div_add_mod _ U32
  simp only [FILETIME.from_systime, FILETIME.into_systime]
  rw [hF, hmodmod, hmodmod, Nat.mod_eq_of_lt hdivlt, hrebuild]
  rw [if_neg (by omega : ¬ nanos / 100 + MS_EPOCH < MS_EPOCH)]
  have hsub : nanos / 100 + MS_EPOCH - MS_EPOCH = nanos / 100 := by omega
  rw [hsub, Nat.div_mul_cancel (Nat.dvd_of_mod_eq_zero hmod), Nat.mod_eq_of_lt hlt]

/-- Witness for C5 amended at 100 ns past the epoch. -/
theorem c5_filetime_roundtrip_witness :
    FILETIME.into_systime (FILETIME.from_systime 100) = some 100 :=
  c5_filetime_roundtrip 100 rfl (by decide)

/-! ## C1 — the chain reader does not terminate on a looping file -/

/-- C1: on `c1LoopFile` the chain reader
(`BlockManager::read_chain_from_file_at`) never leaves its loop — after any
number of iterations it is still running — and therefore `BlockManager::new`
never finishes either.  In particular it never returns `MalformedChain`:
there is no bound on the iteration count and no revisit detection. -/
theorem c1_chain_reader_never_terminates :
    (∀ (fuel : Nat) (blocks : List PackBlock),
      read_chain_steps c1LoopFile fuel PK2_ROOT_BLOCK blocks = none) ∧
    (∀ (fuel : Nat) (chains : List (Nat × PackBlockChain)),
      block_manager_new_steps c1LoopFile fuel [PK2_ROOT_BLOCK] chains = none) := by
  have hread : ∀ (fuel : Nat) (blocks : List PackBlock),
      read_chain_steps c1LoopFile fuel PK2_ROOT_BLOCK blocks = none := by
    intro fuel
    induction fuel with
    | zero => intro blocks; rfl
    | succ n ih =>
      intro blocks
      have hstep : read_chain_steps c1LoopFile (n + 1) PK2_ROOT_BLOCK blocks =
          read_chain_steps c1LoopFile n PK2_ROOT_BLOCK (blocks ++ [c1LoopBlock]) := rfl
      rw [hstep]
      exact ih _
  refine ⟨hread, ?_⟩
  intro fuel chains
  cases fuel with
  | zero => rfl
  | succ n =>
    show (match read_chain_steps c1LoopFile (n + 1) PK2_ROOT_BLOCK [] with
      | none => none
      | some (.error e) => some (.error e)
      | some (.ok chain) => block_manager_new_steps c1LoopFile n
          ((chain_child_offsets chain).reverse ++ []) ((PK2_ROOT_BLOCK, chain) :: chains)) = none
    rw [hread (n + 1) []]

/-! ## C6 — duplicate child offsets are silently accepted -/

/-- C6: `BlockManager::new` on the duplicate-offset file succeeds — the
second insert of offset 512 silently shadows the first (`// TODO
collisions`) — instead of failing with `Corrupt`. -/
theorem c6_duplicate_insert_is_not_corrupt :
    bm_new_is_ok (block_manager_new_steps c6DupFile 10 [PK2_ROOT_BLOCK] []) = true ∧
    block_manager_new_steps c6DupFile 10 [PK2_ROOT_BLOCK] [] ≠
      some (.error .Corrupt) := by
  have hok : bm_new_is_ok (block_manager_new_steps c6DupFile 10 [PK2_ROOT_BLOCK] []) = true := by
    rfl
  refine ⟨hok, fun h => ?_⟩
  rw [h] at hok
  exact Bool.noConfusion hok

/-! ## C10 — `delete_file` clears the cache before the disk write -/

/-- C10: when the path resolves to a file and the entry write to the stream
fails, `delete_file` returns the `Io` error with the in-memory entry already
cleared (the resolved slot holds `entry.clear()`, an `Empty`), while nothing
was written to the stream (`writes` and `fileLen` unchanged): the operation
is not atomic on error and the cache diverges from the file. -/
theorem c10_delete_file_clears_cache_before_write
    (st : Pk2State) (p : ArchivePath) (c i : Nat) (e : PackEntry)
    (hres : BlockManager.resolve_path_to_entry_and_parent st.chains PK2_ROOT_BLOCK p =
      .ok (c, i, e))
    (hfile : e.is_file = true) :
    delete_file st p true = (.error .Io, set_entry_state st c i e.clear) ∧
    e.clear.is_empty = true ∧
    (set_entry_state st c i e.clear).writes = st.writes ∧
    (set_entry_state st c i e.clear).fileLen = st.fileLen := by
  refine ⟨?_, rfl, rfl, rfl⟩
  unfold delete_file
  rw [hres]
  simp [hfile]

/-- Witness for C10: deleting `/a` of `sampleState` with the write failing
leaves the cleared entry in memory and the stream untouched. -/
theorem c10_delete_file_clears_cache_before_write_witness :
    delete_file sampleState [PathComp.normal "a"] true =
      (.error .Io, set_entry_state sampleState PK2_ROOT_BLOCK 1
        (PackEntry.new_file "a" 0 0 none).clear) ∧
    (PackEntry.new_file "a" 0 0 none).clear.is_empty = true ∧
    (set_entry_state sampleState PK2_ROOT_BLOCK 1
      (PackEntry.new_file "a" 0 0 none).clear).writes = sampleState.writes ∧
    (set_entry_state sampleState PK2_ROOT_BLOCK 1
      (PackEntry.new_file "a" 0 0 none).clear).fileLen = sampleState.fileLen :=
  c10_delete_file_clears_cache_before_write sampleState [PathComp.normal "a"]
    PK2_ROOT_BLOCK 1 (PackEntry.new_file "a" 0 0 none) rfl rfl

/-! ## C9 — `create_file` keeps the slot's chain-continuation link -/

/-- C9: the file entry `create_file` writes into the slot returned by
`create_entry_at` is `new_file(file_name, 0, 0, old.next_block())`: the
slot's previous `next_block` value — the authoritative chain link when the
slot is the last of a block — is preserved verbatim. -/
theorem c9_create_file_preserves_next_block
    (st st1 : Pk2State) (p : ArchivePath) (fname : String) (chain idx : Nat) (e : PackEntry)
    (hname : file_name p = some fname)
    (hcreate : create_entry_at st PK2_ROOT_BLOCK p = .ok (st1, chain, idx))
    (hentry : get_entry st1 chain idx = some e) :
    create_file st p =
      .ok (set_entry_state st1 chain idx (PackEntry.new_file fname 0 0 e.next_block),
        chain, idx) ∧
    (PackEntry.new_file fname 0 0 e.next_block).next_block = e.next_block := by
  constructor
  · simp only [create_file, hname, hcreate, hentry]
  · rfl

/-- Witness for C9: creating `/b` on the fresh archive stores a file entry
whose `next_block` equals that of the empty slot it replaced. -/
theorem c9_create_file_preserves_next_block_witness :
    create_file freshState [PathComp.normal "b"] =
      .ok (set_entry_state freshState PK2_ROOT_BLOCK 1
        (PackEntry.new_file "b" 0 0 (PackEntry.empty none).next_block),
        PK2_ROOT_BLOCK, 1) ∧
    (PackEntry.new_file "b" 0 0 (PackEntry.empty none).next_block).next_block =
      (PackEntry.empty none).next_block :=
  c9_create_file_preserves_next_block freshState freshState [PathComp.normal "b"] "b"
    PK2_ROOT_BLOCK 1 (PackEntry.empty none) rfl rfl rfl

/-! ## C2 — creating over an existing entry -/

/-- C2 counterexample: `/a` of `sampleState` is an existing (file) entry,
yet `create_file` returns `ExpectedDirectory`, not `AlreadyExists`: the
creation walk propagates the `ExpectedDirectory` of
`find_block_chain_index_of` instead of exhausting the components. -/
theorem c2_create_file_on_existing_file_counterexample :
    (∃ r, BlockManager.resolve_path_to_entry_and_parent sampleState.chains PK2_ROOT_BLOCK
      [PathComp.normal "a"] = .ok r) ∧
    create_file sampleState [PathComp.normal "a"] = .error .ExpectedDirectory ∧
    create_file sampleState [PathComp.normal "a"] ≠ .error .AlreadyExists := by
  refine ⟨⟨(PK2_ROOT_BLOCK, 1, PackEntry.new_file "a" 0 0 none), rfl⟩, rfl, fun h => ?_⟩
  have h2 : (Except.error Error.ExpectedDirectory : Except Error (Pk2State × Nat × Nat)) =
      Except.error Error.AlreadyExists :=
    (rfl : create_file sampleState [PathComp.normal "a"] =
      Except.error Error.ExpectedDirectory).symm.trans h
  injection h2 with h3
  exact Error.noConfusion h3

/-- C2 amended: with a valid file name, when the creation walk exhausts all
path components without creating anything (`validate_dir_path_until`
returns an empty remainder — the case of an existing *directory* at the
path), `create_file` fails with `AlreadyExists`; when the walk instead runs
into an existing *file*, `validate_dir_path_until` returns
`ExpectedDirectory` and `create_file` fails with that error. -/
theorem c2_create_file_on_existing_entry
    (st : Pk2State) (p : ArchivePath) (s : String)
    (hname : file_name p = some s) :
    (∀ c, BlockManager.validate_dir_path_until st.chains PK2_ROOT_BLOCK p = .ok (c, []) →
      create_file st p = .error .AlreadyExists) ∧
    (BlockManager.validate_dir_path_until st.chains PK2_ROOT_BLOCK p =
        .error .ExpectedDirectory →
      create_file st p = .error .ExpectedDirectory) := by
  constructor
  · intro c h
    unfold create_file create_entry_at
    rw [hname, h]
    rfl
  · intro h
    unfold create_file create_entry_at
    rw [hname, h]

/-- Witness for C2 amended: `/d` on an archive whose root holds a directory
`d` — the walk exhausts the path and `create_file` answers
`AlreadyExists`. -/
theorem c2_create_file_on_existing_entry_witness :
    create_file
      { chains := [(PK2_ROOT_BLOCK,
          ⟨[{ offset := PK2_ROOT_BLOCK,
              entries := PackEntry.new_directory PK2_CURRENT_DIR_IDENT PK2_ROOT_BLOCK none ::
                PackEntry.new_directory "d" 2816 none ::
                List.replicate 18 PackEntry.defaultEntry }]⟩),
          (2816,
          ⟨[{ offset := 2816,
              entries := PackEntry.new_directory PK2_CURRENT_DIR_IDENT 2816 none ::
                PackEntry.new_directory PK2_PARENT_DIR_IDENT PK2_ROOT_BLOCK none ::
                List.replicate 18 PackEntry.defaultEntry }]⟩)],
        fileLen := 5376, writes := [] }
      [PathComp.normal "d"] = .error .AlreadyExists :=
  (c2_create_file_on_existing_entry _ [PathComp.normal "d"] "d" rfl).1 2816 rfl

/-! ## C3 — a `..` escaping the root -/

/-- Helper for C3: resolution of any non-trivial path starting with a `..`
fails with `NotFound` when the start chain has no `..` entry (the root
never has one). -/
theorem resolve_ep_parent_escape (st : Pk2State) (root : PackBlockChain)
    (b : PathComp) (q : ArchivePath)
    (hroot : BlockManager.get st.chains PK2_ROOT_BLOCK = some root)
    (hnp : root.find_entry_named PK2_PARENT_DIR_IDENT = none) :
    BlockManager.resolve_path_to_entry_and_parent st.chains PK2_ROOT_BLOCK
      (.parentDir :: b :: q) = .error .NotFound := by
  have hlast : (PathComp.parentDir :: b :: q).getLast? =
      some ((PathComp.parentDir :: b :: q).getLast (by simp)) :=
    List.getLast?_eq_getLast _ _
  have hdrop : (PathComp.parentDir :: b :: q).dropLast =
      .parentDir :: (b :: q).dropLast := rfl
  have hfind : root.find_block_chain_index_of PathComp.parentDir.ident = .error .NotFound := by
    unfold PackBlockChain.find_block_chain_index_of
    rw [show PathComp.parentDir.ident = PK2_PARENT_DIR_IDENT from rfl, hnp]
  have hres : BlockManager.resolve_path_to_block_chain_index_at st.chains PK2_ROOT_BLOCK
      (.parentDir :: (b :: q).dropLast) = .error .NotFound := by
    unfold BlockManager.resolve_path_to_block_chain_index_at
    rw [hroot]
    simp only [hfind]
  unfold BlockManager.resolve_path_to_entry_and_parent
  rw [hlast, hdrop, hres]

/-- C3 counterexample: `/../x` escapes the root, but `open_file` reports
`NotFound` (the root chain simply has no entry named `..`), not the
`InvalidPath` the claim requires. -/
theorem c3_escape_counterexample :
    open_file freshState [PathComp.parentDir, PathComp.normal "x"] = .error .NotFound ∧
    open_file freshState [PathComp.parentDir, PathComp.normal "x"] ≠
      .error .InvalidPath := by
  refine ⟨rfl, fun h => ?_⟩
  have h2 : (Except.error Error.NotFound : Except Error (Nat × Nat)) =
      Except.error Error.InvalidPath :=
    (rfl : open_file freshState [PathComp.parentDir, PathComp.normal "x"] =
      Except.error Error.NotFound).symm.trans h
  injection h2 with h3
  exact Error.noConfusion h3

/-- C3 amended: for an absolute path whose first component is a `..` (so the
`..` escapes the root, which carries no `..` entry) and whose final
component is a normal name, the resolving operations `open_file`,
`open_file_mut`, `open_directory` and `delete_file` fail with `NotFound`,
while `create_file` — whose `validate_dir_path_until` walk escalates a
`NotFound` on a `..` component — fails with `InvalidPath`. -/
theorem c3_parent_dir_escaping_root (st : Pk2State) (root : PackBlockChain)
    (b : PathComp) (q : ArchivePath) (s : String)
    (hroot : BlockManager.get st.chains PK2_ROOT_BLOCK = some root)
    (hnp : root.find_entry_named PK2_PARENT_DIR_IDENT = none)
    (hname : file_name (.parentDir :: b :: q) = some s) :
    open_file st (.parentDir :: b :: q) = .error .NotFound ∧
    open_file_mut st (.parentDir :: b :: q) = .error .NotFound ∧
    open_directory st (.parentDir :: b :: q) = .error .NotFound ∧
    (delete_file st (.parentDir :: b :: q) false).1 = .error .NotFound ∧
    create_file st (.parentDir :: b :: q) = .error .InvalidPath := by
  have hres := resolve_ep_parent_escape st root b q hroot hnp
  have hfind : root.find_block_chain_index_of PathComp.parentDir.ident = .error .NotFound := by
    unfold PackBlockChain.find_block_chain_index_of
    rw [show PathComp.parentDir.ident = PK2_PARENT_DIR_IDENT from rfl, hnp]
  refine ⟨?_, ?_, ?_, ?_, ?_⟩
  · unfold open_file
    rw [hres]
  · unfold open_file_mut
    rw [hres]
  · unfold open_directory
    rw [hres]
  · unfold delete_file
    rw [hres]
  · unfold create_file
    rw [hname]
    unfold create_entry_at
    have hval : BlockManager.validate_dir_path_until st.chains PK2_ROOT_BLOCK
        (.parentDir :: b :: q) = .error .InvalidPath := by
      unfold BlockManager.validate_dir_path_until
      rw [hroot]
      simp only [hfind]
      rfl
    rw [hval]

/-- Witness for C3 amended on the fresh archive and the path `/../x`. -/
theorem c3_parent_dir_escaping_root_witness :
    open_file freshState [PathComp.parentDir, PathComp.normal "x"] = .error .NotFound ∧
    open_file_mut freshState [PathComp.parentDir, PathComp.normal "x"] = .error .NotFound ∧
    open_directory freshState [PathComp.parentDir, PathComp.normal "x"] = .error .NotFound ∧
    (delete_file freshState [PathComp.parentDir, PathComp.normal "x"] false).1 =
      .error .NotFound ∧
    create_file freshState [PathComp.parentDir, PathComp.normal "x"] =
      .error .InvalidPath :=
  c3_parent_dir_escaping_root freshState ⟨[freshRootBlock]⟩ (PathComp.normal "x") [] "x"
    rfl rfl rfl

/-! ## C4 — `for_each_file` hands the callback wrong relative paths -/

/-- C4: traversing `c4State` from the root visits each of the two files
once and in files-before-subdirectory order, but the callback receives
`B/A/g` as the relative path of the file that actually lives at `A/g`: the
path component pushed for `B` is never popped (its popping is conditional
on `B` having had no subdirectories), so the claimed push-on-descent /
pop-on-ascent bookkeeping — and with it the relative path — is wrong. -/
theorem c4_for_each_file_wrong_relative_path :
    for_each_file c4State [] 10 =
      .ok (some [["B", "C", "f"], ["B", "A", "g"]]) ∧
    (["B", "A", "g"] : List String) ≠ ["A", "g"] := by
  exact ⟨rfl, by decide⟩

/-! ## Infrastructure for C7: flattened-entry correspondence

A chain accesses entry `i` through `blocks[i / 20]` and slot `i % 20`; the
iterator-based scans (`entries()`) see the flattened list.  When every block
has exactly 20 entries the two views agree. -/

theorem blocks_full_cons {b : PackBlock} {bs : List PackBlock} (h : BlocksFull (b :: bs)) :
    b.entries.length = PK2_FILE_BLOCK_ENTRY_COUNT ∧ BlocksFull bs :=
  ⟨h b (List.mem_cons_self b bs), fun b' hb' => h b' (List.mem_cons_of_mem b hb')⟩

theorem flat_entries_length :
    ∀ (bs : List PackBlock), BlocksFull bs →
      (bs.flatMap PackBlock.entries).length = bs.length * PK2_FILE_BLOCK_ENTRY_COUNT
  | [], _ => rfl
  | b :: bs, h => by
    obtain ⟨hb, hbs⟩ := blocks_full_cons h
    simp only [List.flatMap_cons, List.length_append, flat_entries_length bs hbs,
      PackBlock.entries, hb, List.length_cons]
    ring

theorem flat_get :
    ∀ (bs : List PackBlock), BlocksFull bs → ∀ i,
      (bs.get? (i / PK2_FILE_BLOCK_ENTRY_COUNT)).bind
        (fun b => b.entries.get? (i % PK2_FILE_BLOCK_ENTRY_COUNT)) =
      (bs.flatMap PackBlock.entries).get? i
  | [], _, i => by
    simp [List.get?]
  | b :: bs, h, i => by
    obtain ⟨hb, hbs⟩ := blocks_full_cons h
    by_cases hlt : i < PK2_FILE_BLOCK_ENTRY_COUNT
    · have hdiv : i / PK2_FILE_BLOCK_ENTRY_COUNT = 0 := Nat.div_eq_of_lt hlt
      have hmod : i % PK2_FILE_BLOCK_ENTRY_COUNT = i := Nat.mod_eq_of_lt hlt
      rw [hdiv, hmod]
      simp only [List.flatMap_cons, List.get?_cons_zero, Option.some_bind]
      rw [List.get?_append (by rw [hb]; exact hlt)]
    · obtain ⟨j, rfl⟩ : ∃ j, i = PK2_FILE_BLOCK_ENTRY_COUNT + j :=
        ⟨i - PK2_FILE_BLOCK_ENTRY_COUNT, by omega⟩
      have hdiv : (PK2_FILE_BLOCK_ENTRY_COUNT + j) / PK2_FILE_BLOCK_ENTRY_COUNT =
          j / PK2_FILE_BLOCK_ENTRY_COUNT + 1 := by
        rw [Nat.add_comm]
        exact Nat.add_div_right j (by decide)
      have hmod : (PK2_FILE_BLOCK_ENTRY_COUNT + j) % PK2_FILE_BLOCK_ENTRY_COUNT =
          j % PK2_FILE_BLOCK_ENTRY_COUNT := Nat.add_mod_left _ _
      rw [hdiv, hmod]
      simp only [List.flatMap_cons, List.get?_cons_succ]
      rw [flat_get bs hbs j]
      rw [List.get?_append_right (by omega : (b.entries).length ≤ PK2_FILE_BLOCK_ENTRY_COUNT + j)]
      congr 1
      omega

/-- Membership in `List.set`: an element of the updated list is the new
element or an element of the old list. -/
theorem mem_set_cases {α : Type} :
    ∀ (l : List α) (i : Nat) (a x : α), x ∈ l.set i a → x ∈ l ∨ x = a
  | [], _, _, _, h => absurd h (by simp)
  | _ :: _, 0, _, _, h => by
    rcases List.mem_cons.mp h with h' | h'
    · exact Or.inr h'
    · exact Or.inl (List.mem_cons_of_mem _ h')
  | b :: l, i + 1, a, x, h => by
    rcases List.mem_cons.mp h with h' | h'
    · exact Or.inl (h' ▸ List.mem_cons_self b l)
    · rcases mem_set_cases l i a x h' with h'' | h''
      · exact Or.inl (List.mem_cons_of_mem b h'')
      · exact Or.inr h''

/-- `List.set` distributes over an append when the index hits the left
part. -/
theorem set_append_left {α : Type} :
    ∀ (l₁ l₂ : List α) (i : Nat) (a : α), i < l₁.length →
      (l₁ ++ l₂).set i a = l₁.set i a ++ l₂
  | [], _, _, _, h => absurd h (by simp)
  | _ :: _, l₂, 0, a, _ => rfl
  | b :: l₁, l₂, i + 1, a, h => by
    simp only [List.cons_append, List.set, List.append_eq]
    rw [set_append_left l₁ l₂ i a (by simpa using h)]

/-- `List.set` moves to the right part of an append when the index is past
the left part. -/
theorem set_append_right {α : Type} :
    ∀ (l₁ l₂ : List α) (i : Nat) (a : α), l₁.length ≤ i →
      (l₁ ++ l₂).set i a = l₁ ++ l₂.set (i - l₁.length) a
  | [], _, _, _, _ => by simp
  | b :: l₁, l₂, i + 1, a, h => by
    simp only [List.cons_append, List.set, List.append_eq]
    rw [set_append_right l₁ l₂ i a (by simpa using h)]
    simp [Nat.succ_sub_succ]
  | b :: l₁, _, 0, _, h => absurd h (by simp)

theorem flat_set :
    ∀ (bs : List PackBlock), BlocksFull bs → ∀ i (e : PackEntry),
      i < bs.length * PK2_FILE_BLOCK_ENTRY_COUNT →
      (PackBlockChain.set_entry ⟨bs⟩ i e).blocks.flatMap PackBlock.entries =
        (bs.flatMap PackBlock.entries).set i e
  | [], _, i, e, h => by simp at h
  | b :: bs, h, i, e, hi => by
    obtain ⟨hb, hbs⟩ := blocks_full_cons h
    unfold PackBlockChain.set_entry
    by_cases hlt : i < PK2_FILE_BLOCK_ENTRY_COUNT
    · have hdiv : i / PK2_FILE_BLOCK_ENTRY_COUNT = 0 := Nat.div_eq_of_lt hlt
      have hmod : i % PK2_FILE_BLOCK_ENTRY_COUNT = i := Nat.mod_eq_of_lt hlt
      rw [hdiv, hmod]
      simp only [List.get?_cons_zero, List.set_cons_zero, List.flatMap_cons]
      rw [set_append_left _ _ _ _ (by rw [hb]; exact hlt)]
    · obtain ⟨j, rfl⟩ : ∃ j, i = PK2_FILE_BLOCK_ENTRY_COUNT + j :=
        ⟨i - PK2_FILE_BLOCK_ENTRY_COUNT, by omega⟩
      have hdiv : (PK2_FILE_BLOCK_ENTRY_COUNT + j) / PK2_FILE_BLOCK_ENTRY_COUNT =
          j / PK2_FILE_BLOCK_ENTRY_COUNT + 1 := by
        rw [Nat.add_comm]
        exact Nat.add_div_right j (by decide)
      have hmod : (PK2_FILE_BLOCK_ENTRY_COUNT + j) % PK2_FILE_BLOCK_ENTRY_COUNT =
          j % PK2_FILE_BLOCK_ENTRY_COUNT := Nat.add_mod_left _ _
      rw [hdiv, hmod]
      have hj : j < bs.length * PK2_FILE_BLOCK_ENTRY_COUNT := by
        have := hi
        simp only [List.length_cons, Nat.succ_mul] at this
        omega
      have ih := flat_set bs hbs j e hj
      unfold PackBlockChain.set_entry at ih
      cases hg : bs.get? (j / PK2_FILE_BLOCK_ENTRY_COUNT) with
      | none =>
        have : bs.length ≤ j / PK2_FILE_BLOCK_ENTRY_COUNT := List.get?_eq_none.mp hg
        have : bs.length * PK2_FILE_BLOCK_ENTRY_COUNT ≤ j := by
          calc bs.length * PK2_FILE_BLOCK_ENTRY_COUNT
              ≤ j / PK2_FILE_BLOCK_ENTRY_COUNT * PK2_FILE_BLOCK_ENTRY_COUNT :=
                Nat.mul_le_mul_right _ this
          _ ≤ j := Nat.div_mul_le_self _ _
        omega
      | some bj =>
        rw [hg] at ih
        simp only [List.get?_cons_succ, List.set_cons_succ, hg, List.flatMap_cons]
        rw [set_append_right _ _ _ _ (by omega : (b.entries).length ≤ PK2_FILE_BLOCK_ENTRY_COUNT + j)]
        rw [show PK2_FILE_BLOCK_ENTRY_COUNT + j - b.entries.length = j by omega]
        rw [ih]

theorem chain_get_eq_entries_get {c : PackBlockChain} (h : ChainFull c) (i : Nat) :
    c.get i = c.entries.get? i := by
  unfold PackBlockChain.get PackBlockChain.entries PackBlock.get
  exact flat_get c.blocks h i

theorem chain_entries_length {c : PackBlockChain} (h : ChainFull c) :
    c.entries.length = c.num_entries := by
  unfold PackBlockChain.entries PackBlockChain.num_entries
  exact flat_entries_length c.blocks h

theorem set_entry_entries {c : PackBlockChain} (h : ChainFull c) {i : Nat} (e : PackEntry)
    (hi : i < c.num_entries) :
    (c.set_entry i e).entries = c.entries.set i e := by
  unfold PackBlockChain.entries
  have := flat_set c.blocks h i e (by
    unfold PackBlockChain.num_entries at hi
    exact hi)
  exact this

theorem set_entry_blocks_shape (c : PackBlockChain) (i : Nat) (e : PackEntry) :
    (c.set_entry i e).blocks.length = c.blocks.length ∧
    (c.set_entry i e).chain_index = c.chain_index ∧
    (ChainFull c → ChainFull (c.set_entry i e)) := by
  unfold PackBlockChain.set_entry
  cases hg : c.blocks.get? (i / PK2_FILE_BLOCK_ENTRY_COUNT) with
  | none => exact ⟨rfl, rfl, fun h => h⟩
  | some b =>
    refine ⟨List.length_set .., ?_, ?_⟩
    · unfold PackBlockChain.chain_index
      cases hb : c.blocks with
      | nil => rw [hb] at hg; exact Option.noConfusion hg
      | cons hd tl =>
        cases hq : i / PK2_FILE_BLOCK_ENTRY_COUNT with
        | zero =>
          rw [hb, hq] at hg
          have hbd : b = hd := by
            injection hg with hg'
            exact hg'.symm
          subst hbd
          simp [List.set]
        | succ n => simp [List.set]
    · intro hfull b' hb'
      rcases mem_set_cases _ _ _ _ hb' with hmem | heq
      · exact hfull b' hmem
      · subst heq
        simp only [List.length_set]
        exact hfull b (List.get?_mem hg)

/-! ### The directory view of a chain

`find_block_chain_index_of` reads only each entry's name and (for the found
entry) its directory `children_position`; the pair of those is the
`entry_view`.  Two chains with equal entry views therefore resolve names
identically, and appending name-less (empty) entries changes nothing. -/

theorem entry_view_set_next_block (e : PackEntry) (n : Nat) :
    entry_view (e.set_next_block n) = entry_view e := by
  cases e <;> rfl

/-- `find?` through a projection: lists with equal images under `g` produce
`find?` results (for predicates factoring through `g`) with equal images. -/
theorem find?_map_congr {α β : Type} (g : α → β) (q : β → Bool) :
    ∀ (l l' : List α), l.map g = l'.map g →
      (l.find? (fun a => q (g a))).map g = (l'.find? (fun a => q (g a))).map g
  | [], [], _ => rfl
  | [], _ :: _, h => by simp at h
  | _ :: _, [], h => by simp at h
  | a :: l, a' :: l', h => by
    simp only [List.map_cons, List.cons.injEq] at h
    obtain ⟨hg, hl⟩ := h
    by_cases hq : q (g a)
    · rw [List.find?_cons_of_pos (p := fun x => q (g x)) _ hq,
        List.find?_cons_of_pos (p := fun x => q (g x)) _ (by show q (g a') = true; rw [← hg]; exact hq)]
      simp [hg]
    · rw [List.find?_cons_of_neg (p := fun x => q (g x)) _ hq,
        List.find?_cons_of_neg (p := fun x => q (g x)) _ (by show ¬ q (g a') = true; rw [← hg]; exact hq)]
      exact find?_map_congr g q l l' hl

theorem find_block_chain_index_of_eq_of_view (c c' : PackBlockChain)
    (h : c.entries.map entry_view = c'.entries.map entry_view) (s : String) :
    c.find_block_chain_index_of s = c'.find_block_chain_index_of s := by
  unfold PackBlockChain.find_block_chain_index_of PackBlockChain.find_entry_named
  have hq := find?_map_congr entry_view (fun v => v.1 == some s) c.entries c'.entries h
  have hpred : ∀ (l : List PackEntry),
      (l.find? (fun e => e.name == some s)) =
        (l.find? (fun a => (fun v => v.1 == some s) (entry_view a))) := by
    intro l
    rfl
  rw [hpred, hpred] at *
  cases hc : c.entries.find? (fun a => (fun v => v.1 == some s) (entry_view a)) with
  | none =>
    rw [hc] at hq
    cases hc' : c'.entries.find? (fun a => (fun v => v.1 == some s) (entry_view a)) with
    | none => rfl
    | some e' => rw [hc'] at hq; exact Option.noConfusion hq
  | some e =>
    rw [hc] at hq
    cases hc' : c'.entries.find? (fun a => (fun v => v.1 == some s) (entry_view a)) with
    | none => rw [hc'] at hq; exact Option.noConfusion hq
    | some e' =>
      rw [hc'] at hq
      have hv : entry_view e = entry_view e' := by
        injection hq
      unfold entry_view at hv
      have hch : e.as_directory_children = e'.as_directory_children :=
        congrArg Prod.snd hv
      show (match e.as_directory_children with
        | some pos => Except.ok pos
        | none => Except.error Error.ExpectedDirectory) =
        (match e'.as_directory_children with
        | some pos => Except.ok pos
        | none => Except.error Error.ExpectedDirectory)
      rw [hch]

/-- Appending entries that resolution cannot see (no name) does not change
`find_block_chain_index_of`. -/
theorem find_block_chain_index_of_append_nameless (c c' : PackBlockChain)
    (es : List PackEntry)
    (h : c'.entries = c.entries ++ es) (hes : ∀ e ∈ es, e.name = none) (s : String) :
    c'.find_block_chain_index_of s = c.find_block_chain_index_of s := by
  unfold PackBlockChain.find_block_chain_index_of PackBlockChain.find_entry_named
  rw [h, List.find?_append]
  have : es.find? (fun e => e.name == some s) = none := by
    rw [List.find?_eq_none]
    intro e he
    rw [hes e he]
    simp
  rw [this]
  cases c.entries.find? (fun e => e.name == some s) <;> rfl

/-! ### Slot lemmas: `position`, `find?` and `enumerate().find` under `set` -/

theorem position_is_empty_spec :
    ∀ (l : List PackEntry) (i : Nat), position_is_empty l = some i →
      ∃ e, l.get? i = some e ∧ e.is_empty = true
  | [], i, h => Option.noConfusion h
  | e :: es, i, h => by
    unfold position_is_empty at h
    by_cases he : e.is_empty
    · rw [if_pos he] at h
      injection h with h'
      exact h' ▸ ⟨e, rfl, he⟩
    · rw [if_neg he] at h
      cases hp : position_is_empty es with
      | none => rw [hp] at h; exact Option.noConfusion h
      | some j =>
        rw [hp] at h
        injection h with h'
        obtain ⟨e', hg, hemp⟩ := position_is_empty_spec es j hp
        exact h' ▸ ⟨e', hg, hemp⟩

theorem name_none_of_is_empty {e : PackEntry} (h : e.is_empty = true) : e.name = none := by
  cases e with
  | empty nb => rfl
  | directory n c nb => exact Bool.noConfusion h
  | file n p s nb => exact Bool.noConfusion h

/-- Setting an index to an element the predicate rejects, over an element it
also rejected, leaves `find?` unchanged. -/
theorem find?_set_of_neg (p : PackEntry → Bool) :
    ∀ (l : List PackEntry) (i : Nat) (eOld eNew : PackEntry),
      l.get? i = some eOld → p eOld = false → p eNew = false →
      (l.set i eNew).find? p = l.find? p
  | [], _, _, _, hget, _, _ => Option.noConfusion hget
  | a :: l, 0, eOld, eNew, hget, hOld, hNew => by
    injection hget with h
    subst h
    rw [List.set_cons_zero, List.find?_cons_of_neg _ (by rw [hNew]; exact Bool.false_ne_true),
      List.find?_cons_of_neg _ (by rw [hOld]; exact Bool.false_ne_true)]
  | a :: l, i + 1, eOld, eNew, hget, hOld, hNew => by
    rw [List.set_cons_succ]
    by_cases ha : p a
    · rw [List.find?_cons_of_pos _ ha, List.find?_cons_of_pos _ ha]
    · rw [List.find?_cons_of_neg _ ha, List.find?_cons_of_neg _ ha]
      exact find?_set_of_neg p l i eOld eNew hget hOld hNew

/-- When nothing satisfied the predicate, setting index `i` to a satisfying
element makes `find?` return exactly it. -/
theorem find?_set_of_none (p : PackEntry → Bool) :
    ∀ (l : List PackEntry) (i : Nat) (eNew : PackEntry),
      i < l.length → l.find? p = none → p eNew = true →
      (l.set i eNew).find? p = some eNew
  | [], _, _, hi, _, _ => absurd hi (by simp)
  | a :: l, 0, eNew, _, _, hNew => by
    rw [List.set_cons_zero, List.find?_cons_of_pos _ hNew]
  | a :: l, i + 1, eNew, hi, hnone, hNew => by
    rw [List.find?_eq_none] at hnone
    have ha : ¬ p a := hnone a (List.mem_cons_self a l)
    rw [List.set_cons_succ, List.find?_cons_of_neg _ ha]
    exact find?_set_of_none p l i eNew (by simpa using hi)
      (List.find?_eq_none.mpr fun x hx => hnone x (List.mem_cons_of_mem a hx)) hNew

/-- As `find?_set_of_none`, but returning the index as
`enumerate().find` does. -/
theorem enumerate_find_name_set :
    ∀ (l : List PackEntry) (i : Nat) (eNew : PackEntry) (m : String),
      i < l.length → l.find? (fun e => e.name == some m) = none → eNew.name = some m →
      enumerate_find_name (l.set i eNew) (some m) = some (i, eNew)
  | [], _, _, _, hi, _, _ => absurd hi (by simp)
  | a :: l, 0, eNew, m, _, _, hNew => by
    rw [List.set_cons_zero]
    unfold enumerate_find_name
    rw [if_pos (by rw [hNew]; exact beq_self_eq_true _)]
  | a :: l, i + 1, eNew, m, hi, hnone, hNew => by
    rw [List.find?_eq_none] at hnone
    have ha : (a.name == some m) = false :=
      Bool.not_eq_true _ ▸ hnone a (List.mem_cons_self a l)
    rw [List.set_cons_succ]
    unfold enumerate_find_name
    rw [if_neg (by rw [ha]; exact Bool.false_ne_true)]
    rw [enumerate_find_name_set l i eNew m (by simpa using hi)
      (List.find?_eq_none.mpr fun x hx => hnone x (List.mem_cons_of_mem a hx)) hNew]
    rfl

/-- Setting an index back to the element it already holds is the
identity. -/
theorem set_get_self {α : Type} :
    ∀ (l : List α) (i : Nat) (a : α), l.get? i = some a → l.set i a = l
  | [], _, _, h => Option.noConfusion h
  | b :: l, 0, a, h => by
    injection h with h'
    rw [List.set_cons_zero, h']
  | b :: l, i + 1, a, h => by
    rw [List.set_cons_succ, set_get_self l i a h]

/-- `map` commutes with `set`. -/
theorem map_set {α β : Type} (f : α → β) :
    ∀ (l : List α) (i : Nat) (a : α), (l.set i a).map f = (l.map f).set i (f a)
  | [], _, _ => rfl
  | b :: l, 0, a => rfl
  | b :: l, i + 1, a => by
    rw [List.set_cons_succ, List.map_cons, List.map_cons, List.set_cons_succ, map_set f l i a]

/-! ### Association-list lemmas for the `BlockManager` map -/

namespace BlockManager

theorem get_insert_self (chains : List (Nat × PackBlockChain)) (k : Nat) (c : PackBlockChain) :
    get (insert chains k c) k = some c := by
  unfold get insert
  rw [List.find?_cons_of_pos _ (by simp)]
  rfl

theorem get_insert_ne (chains : List (Nat × PackBlockChain)) (k k' : Nat) (c : PackBlockChain)
    (h : k' ≠ k) : get (insert chains k c) k' = get chains k' := by
  unfold get insert
  rw [List.find?_cons_of_neg _ (by simp; exact fun hh => h hh.symm)]

theorem get_modify_self :
    ∀ (chains : List (Nat × PackBlockChain)) (k : Nat) (f : PackBlockChain → PackBlockChain),
      get (modify chains k f) k = (get chains k).map f
  | [], _, _ => rfl
  | (k', c) :: rest, k, f => by
    unfold modify
    by_cases h : k' = k
    · rw [if_pos h]
      unfold get
      rw [List.find?_cons_of_pos _ (by simp [h]), List.find?_cons_of_pos _ (by simp [h])]
      rfl
    · rw [if_neg h]
      unfold get
      rw [List.find?_cons_of_neg _ (by simp [h]), List.find?_cons_of_neg _ (by simp [h])]
      exact get_modify_self rest k f

theorem get_modify_ne :
    ∀ (chains : List (Nat × PackBlockChain)) (k k' : Nat) (f : PackBlockChain → PackBlockChain),
      k' ≠ k → get (modify chains k f) k' = get chains k'
  | [], _, _, _, _ => rfl
  | (k0, c) :: rest, k, k', f, h => by
    unfold modify
    by_cases h0 : k0 = k
    · rw [if_pos h0]
      unfold get
      rw [List.find?_cons_of_neg _ (by simp [h0]; exact fun hh => h hh.symm),
        List.find?_cons_of_neg _ (by simp [h0]; exact fun hh => h hh.symm)]
    · rw [if_neg h0]
      by_cases h1 : k0 = k'
      · unfold get
        rw [List.find?_cons_of_pos _ (by simp [h1]), List.find?_cons_of_pos _ (by simp [h1])]
      · unfold get
        rw [List.find?_cons_of_neg _ (by simp [h1]), List.find?_cons_of_neg _ (by simp [h1])]
        exact get_modify_ne rest k k' f h

theorem get_mem {chains : List (Nat × PackBlockChain)} {k : Nat} {c : PackBlockChain}
    (h : get chains k = some c) : (k, c) ∈ chains := by
  unfold get at h
  cases hf : chains.find? (fun kc => kc.1 == k) with
  | none => rw [hf] at h; exact Option.noConfusion h
  | some kc =>
    rw [hf] at h
    injection h with h'
    have hk : kc.1 = k := by
      have := List.find?_some hf
      simpa using this
    have hm := List.mem_of_find?_eq_some hf
    have : kc = (k, c) := by
      cases kc
      simp only at hk h'
      rw [hk, h']
    exact this ▸ hm

theorem get_none_of_keys_ne {chains : List (Nat × PackBlockChain)} {k : Nat}
    (h : ∀ kc ∈ chains, kc.1 ≠ k) : get chains k = none := by
  unfold get
  rw [List.find?_eq_none.mpr (fun kc hkc => by simp [h kc hkc])]
  rfl

theorem mem_modify :
    ∀ (chains : List (Nat × PackBlockChain)) (k : Nat) (f : PackBlockChain → PackBlockChain)
      (x : Nat × PackBlockChain), x ∈ modify chains k f →
        x ∈ chains ∨ ∃ c, (k, c) ∈ chains ∧ x = (k, f c)
  | [], _, _, _, h => absurd h (by simp [modify])
  | (k', c) :: rest, k, f, x, h => by
    unfold modify at h
    by_cases hk : k' = k
    · rw [if_pos hk] at h
      rcases List.mem_cons.mp h with h' | h'
      · exact Or.inr ⟨c, hk ▸ List.mem_cons_self _ _, hk ▸ h'⟩
      · exact Or.inl (List.mem_cons_of_mem _ h')
    · rw [if_neg hk] at h
      rcases List.mem_cons.mp h with h' | h'
      · exact Or.inl (h' ▸ List.mem_cons_self _ _)
      · rcases mem_modify rest k f x h' with h'' | ⟨c', hc', hx⟩
        · exact Or.inl (List.mem_cons_of_mem _ h'')
        · exact Or.inr ⟨c', List.mem_cons_of_mem _ hc', hx⟩

end BlockManager

/-! ### Well-formed archive states -/

theorem WFState.get_full {st : Pk2State} (h : WFState st) {k : Nat} {c : PackBlockChain}
    (hg : BlockManager.get st.chains k = some c) :
    ChainFull c ∧ c.chain_index = k ∧ c.blocks ≠ [] ∧ k < st.fileLen :=
  ⟨h.full _ (BlockManager.get_mem hg), h.index_eq _ (BlockManager.get_mem hg),
   h.nonempty _ (BlockManager.get_mem hg), h.keys_lt _ (BlockManager.get_mem hg)⟩

/-- Fresh offsets (at or past the end of file) are unmapped. -/
theorem get_fresh_none {st : Pk2State} (h : WFState st) {k : Nat} (hk : st.fileLen ≤ k) :
    BlockManager.get st.chains k = none :=
  BlockManager.get_none_of_keys_ne (fun kc hkc => by
    have := h.keys_lt kc hkc
    omega)

/-! ### Preservation of successful resolutions across mutation steps -/

theorem resolve_ok_preserved_refl (ch : List (Nat × PackBlockChain)) :
    ResolveOkPreserved ch ch := fun _ _ _ h => h

theorem resolve_ok_preserved_trans {c1 c2 c3 : List (Nat × PackBlockChain)}
    (h1 : ResolveOkPreserved c1 c2) (h2 : ResolveOkPreserved c2 c3) :
    ResolveOkPreserved c1 c3 := fun a q b h => h2 a q b (h1 a q b h)

/-- Replacing the chain under `k` by one that preserves successful lookups
preserves successful resolutions. -/
theorem resolve_ok_preserved_modify (chains : List (Nat × PackBlockChain)) (k : Nat)
    (ch ch' : PackBlockChain) (hget : BlockManager.get chains k = some ch)
    (hlp : LookupOkPreserved ch ch') :
    ResolveOkPreserved chains (BlockManager.modify chains k (fun _ => ch')) := by
  intro a q
  induction q generalizing a with
  | nil => intro b h; exact h
  | cons comp rest ih =>
    intro b h
    unfold BlockManager.resolve_path_to_block_chain_index_at at h ⊢
    cases hg : BlockManager.get chains a with
    | none => rw [hg] at h; exact Except.noConfusion h
    | some ca =>
      rw [hg] at h
      by_cases hak : a = k
      · subst hak
        have hca : ca = ch := by
          rw [hget] at hg
          injection hg with h'
          exact h'.symm
        subst hca
        rw [BlockManager.get_modify_self, hget]
        cases hf : ca.find_block_chain_index_of comp.ident with
        | error e =>
          simp only [hf] at h
          exact Except.noConfusion h
        | ok i =>
          simp only [hf] at h
          have hstep := hlp comp.ident i hf
          simp only [Option.map, hstep]
          exact ih i b h
      · rw [BlockManager.get_modify_ne chains k a _ hak, hg]
        cases hf : ca.find_block_chain_index_of comp.ident with
        | error e =>
          simp only [hf] at h
          exact Except.noConfusion h
        | ok i =>
          simp only [hf] at h
          simp only [hf]
          exact ih i b h

/-- Inserting a binding for an unmapped key preserves successful
resolutions. -/
theorem resolve_ok_preserved_insert (chains : List (Nat × PackBlockChain)) (k : Nat)
    (c : PackBlockChain) (hnone : BlockManager.get chains k = none) :
    ResolveOkPreserved chains (BlockManager.insert chains k c) := by
  intro a q
  induction q generalizing a with
  | nil => intro b h; exact h
  | cons comp rest ih =>
    intro b h
    unfold BlockManager.resolve_path_to_block_chain_index_at at h ⊢
    cases hg : BlockManager.get chains a with
    | none => rw [hg] at h; exact Except.noConfusion h
    | some ca =>
      rw [hg] at h
      have hak : a ≠ k := fun hh => by
        rw [hh, hnone] at hg
        exact Option.noConfusion hg
      rw [BlockManager.get_insert_ne chains k a c hak, hg]
      cases hf : ca.find_block_chain_index_of comp.ident with
      | error e =>
        simp only [hf] at h
        exact Except.noConfusion h
      | ok i =>
        simp only [hf] at h
        simp only [hf]
        exact ih i b h

/-- The defining equation of `resolve_path_to_block_chain_index_at` on a
cons. -/
theorem resolve_cons (chains : List (Nat × PackBlockChain)) (a : Nat) (comp : PathComp)
    (rest : ArchivePath) :
    BlockManager.resolve_path_to_block_chain_index_at chains a (comp :: rest) =
      match BlockManager.get chains a with
      | none => .error .InvalidChainIndex
      | some chain =>
        match chain.find_block_chain_index_of comp.ident with
        | .ok i => BlockManager.resolve_path_to_block_chain_index_at chains i rest
        | .error e => .error e := rfl

/-- Resolution of an appended path factors through the intermediate
chain. -/
theorem resolve_append (chains : List (Nat × PackBlockChain)) :
    ∀ (q1 q2 : ArchivePath) (a : Nat),
      BlockManager.resolve_path_to_block_chain_index_at chains a (q1 ++ q2) =
        match BlockManager.resolve_path_to_block_chain_index_at chains a q1 with
        | .ok b => BlockManager.resolve_path_to_block_chain_index_at chains b q2
        | .error e => .error e
  | [], q2, a => rfl
  | comp :: rest, q2, a => by
    rw [show (comp :: rest) ++ q2 = comp :: (rest ++ q2) from rfl,
      resolve_cons chains a comp (rest ++ q2), resolve_cons chains a comp rest]
    cases hg : BlockManager.get chains a with
    | none => rfl
    | some ca =>
      cases hf : ca.find_block_chain_index_of comp.ident with
      | error e => simp only [hf]
      | ok i =>
        simp only [hf]
        exact resolve_append chains rest q2 i

/-- `NotFound` from `find_block_chain_index_of` means the name scan itself
came up empty. -/
theorem find_entry_named_none_of_not_found {c : PackBlockChain} {s : String}
    (h : c.find_block_chain_index_of s = .error .NotFound) :
    c.find_entry_named s = none := by
  unfold PackBlockChain.find_block_chain_index_of at h
  cases hfe : c.find_entry_named s with
  | none => rfl
  | some e =>
    rw [hfe] at h
    cases hd : e.as_directory_children with
    | none => simp only [hd] at h; exact absurd (by injection h) (by decide)
    | some pos => simp only [hd] at h; exact Except.noConfusion h

/-- What a successful `validate_dir_path_until` walk means: the input path
splits into a resolved prefix and the returned remainder, and when the
remainder is non-empty its first component is absent (by name) from the
chain at the fork point. -/
theorem validate_spec (chains : List (Nat × PackBlockChain)) :
    ∀ (p : ArchivePath) (c0 c : Nat) (tail : ArchivePath),
      BlockManager.validate_dir_path_until chains c0 p = .ok (c, tail) →
      ∃ pre, p = pre ++ tail ∧
        BlockManager.resolve_path_to_block_chain_index_at chains c0 pre = .ok c ∧
        (∀ comp rest', tail = comp :: rest' →
          ∃ ch, BlockManager.get chains c = some ch ∧
            ch.find_entry_named comp.ident = none)
  | [], c0, c, tail, h => by
    replace h : (Except.ok (c0, ([] : ArchivePath)) :
        Except Error (Nat × ArchivePath)) = .ok (c, tail) := h
    injection h with h'
    injection h' with hc ht
    subst hc
    refine ⟨[], by rw [← ht]; rfl, rfl, ?_⟩
    intro comp rest' htail'
    rw [← ht] at htail'
    exact List.noConfusion htail'
  | comp :: rest, c0, c, tail, h => by
    unfold BlockManager.validate_dir_path_until at h
    cases hg : BlockManager.get chains c0 with
    | none =>
      simp only [hg] at h
      exact Except.noConfusion h
    | some ch =>
      simp only [hg] at h
      cases hf : ch.find_block_chain_index_of comp.ident with
      | ok i =>
        simp only [hf] at h
        obtain ⟨pre, hpre, hres, htail⟩ := validate_spec chains rest i c tail h
        refine ⟨comp :: pre, by rw [hpre]; rfl, ?_, htail⟩
        rw [resolve_cons chains c0 comp pre]
        simp only [hg, hf]
        exact hres
      | error e =>
        simp only [hf] at h
        cases e
        case NotFound =>
          replace h : (if comp = PathComp.parentDir
              then (Except.error Error.InvalidPath : Except Error (Nat × ArchivePath))
              else .ok (c0, comp :: rest)) = .ok (c, tail) := h
          by_cases hpd : comp = PathComp.parentDir
          · rw [if_pos hpd] at h
            exact Except.noConfusion h
          · rw [if_neg hpd] at h
            injection h with h'
            injection h' with hc ht
            subst hc
            refine ⟨[], by rw [← ht]; rfl, rfl, ?_⟩
            intro comp' rest' htail'
            rw [← ht] at htail'
            injection htail' with hcc hrr
            subst hcc
            exact ⟨ch, hg, find_entry_named_none_of_not_found hf⟩
        all_goals exact Except.noConfusion h

/-! ### Facts about the fresh blocks and `push_and_link` -/

theorem pack_block_new_entries_length (off : Nat) :
    (PackBlock.new off).entries.length = PK2_FILE_BLOCK_ENTRY_COUNT := by
  simp [PackBlock.new]

theorem pack_block_new_names (off : Nat) :
    ∀ e ∈ (PackBlock.new off).entries, e.name = none := by
  intro e he
  have := List.eq_of_mem_replicate he
  rw [this]
  rfl

theorem chain_index_append_block (l : List PackBlock) (b : PackBlock) (h : l ≠ []) :
    PackBlockChain.chain_index ⟨l ++ [b]⟩ = PackBlockChain.chain_index ⟨l⟩ := by
  cases l with
  | nil => exact absurd rfl h
  | cons hd tl => rfl

theorem num_entries_pos {c : PackBlockChain} (h : c.blocks ≠ []) : 0 < c.num_entries := by
  unfold PackBlockChain.num_entries
  cases hb : c.blocks with
  | nil => exact absurd hb h
  | cons hd tl => simp [Nat.succ_mul, PK2_FILE_BLOCK_ENTRY_COUNT]

/-- A one-block chain built directly from an entry list. -/
theorem one_block_chain_entries (off : Nat) (l : List PackEntry) :
    (PackBlockChain.mk [PackBlock.mk off l]).entries = l := by
  unfold PackBlockChain.entries
  simp [PackBlock.entries]

theorem set_entry_num_entries (c : PackBlockChain) (i : Nat) (e : PackEntry) :
    (c.set_entry i e).num_entries = c.num_entries := by
  unfold PackBlockChain.num_entries
  rw [(set_entry_blocks_shape c i e).1]

theorem num_entries_append_block (l : List PackBlock) (b : PackBlock) :
    PackBlockChain.num_entries ⟨l ++ [b]⟩ =
      PackBlockChain.num_entries ⟨l⟩ + PK2_FILE_BLOCK_ENTRY_COUNT := by
  unfold PackBlockChain.num_entries
  simp [Nat.succ_mul]

/-- The combined shape of `push_and_link` with a freshly zeroed block:
the in-memory effect of the chain-is-full branch of `create_entry_at`. -/
theorem push_and_link_spec (chain : PackBlockChain) (off : Nat)
    (hfull : ChainFull chain) (hne : chain.blocks ≠ []) :
    ∃ eLast,
      chain.entries.get? (chain.num_entries - 1) = some eLast ∧
      (chain.push_and_link off (PackBlock.new off)).entries =
        chain.entries.set (chain.num_entries - 1) (eLast.set_next_block off) ++
          (PackBlock.new off).entries ∧
      ChainFull (chain.push_and_link off (PackBlock.new off)) ∧
      (chain.push_and_link off (PackBlock.new off)).chain_index = chain.chain_index ∧
      (chain.push_and_link off (PackBlock.new off)).blocks ≠ [] ∧
      (chain.push_and_link off (PackBlock.new off)).num_entries =
        chain.num_entries + PK2_FILE_BLOCK_ENTRY_COUNT := by
  have hpos : 0 < chain.num_entries := num_entries_pos hne
  have hlt : chain.num_entries - 1 < chain.num_entries := by omega
  have hget : chain.get (chain.num_entries - 1) =
      chain.entries.get? (chain.num_entries - 1) := chain_get_eq_entries_get hfull _
  have hlen : chain.entries.length = chain.num_entries := chain_entries_length hfull
  cases hg : chain.entries.get? (chain.num_entries - 1) with
  | none =>
    have := List.get?_eq_none.mp hg
    omega
  | some eLast =>
    refine ⟨eLast, rfl, ?_⟩
    have hset := set_entry_blocks_shape chain (chain.num_entries - 1) (eLast.set_next_block off)
    have hpal : chain.push_and_link off (PackBlock.new off) =
        ⟨(chain.set_entry (chain.num_entries - 1) (eLast.set_next_block off)).blocks ++
          [PackBlock.new off]⟩ := by
      unfold PackBlockChain.push_and_link
      simp only [hget, hg]
    have hsetentries :
        (chain.set_entry (chain.num_entries - 1) (eLast.set_next_block off)).entries =
          chain.entries.set (chain.num_entries - 1) (eLast.set_next_block off) :=
      set_entry_entries hfull _ hlt
    have hsetne : (chain.set_entry (chain.num_entries - 1)
        (eLast.set_next_block off)).blocks ≠ [] := by
      intro hcon
      have hl := hset.1
      rw [hcon] at hl
      simp only [List.length_nil] at hl
      cases hb : chain.blocks with
      | nil => exact hne hb
      | cons hd tl => rw [hb] at hl; simp at hl
    refine ⟨?_, ?_, ?_, ?_, ?_⟩
    · rw [hpal]
      show PackBlockChain.entries ⟨_ ++ [PackBlock.new off]⟩ = _
      unfold PackBlockChain.entries
      rw [List.flatMap_append]
      simp only [List.flatMap_cons, List.flatMap_nil, List.append_nil]
      have hfm : (chain.set_entry (chain.num_entries - 1)
          (eLast.set_next_block off)).blocks.flatMap PackBlock.entries =
          chain.entries.set (chain.num_entries - 1) (eLast.set_next_block off) := hsetentries
      rw [hfm]
      rfl
    · rw [hpal]
      intro b hb
      simp only at hb
      rcases List.mem_append.mp hb with hb' | hb'
      · exact hset.2.2 hfull b hb'
      · rw [List.mem_singleton.mp hb']
        exact pack_block_new_entries_length off
    · rw [hpal]
      show PackBlockChain.chain_index ⟨_ ++ [PackBlock.new off]⟩ = _
      rw [chain_index_append_block _ _ hsetne]
      exact hset.2.1
    · rw [hpal]
      simp
    · rw [hpal]
      show PackBlockChain.num_entries ⟨_ ++ [PackBlock.new off]⟩ = _
      rw [num_entries_append_block]
      have : PackBlockChain.num_entries
          ⟨(chain.set_entry (chain.num_entries - 1) (eLast.set_next_block off)).blocks⟩ =
          chain.num_entries := set_entry_num_entries chain _ _
      rw [this]

/-- `push_and_link` with a zeroed block preserves every name-resolution
verdict of the chain (the link update changes no entry view and the new
entries are nameless). -/
theorem push_and_link_find_bcio (chain : PackBlockChain) (off : Nat)
    (hfull : ChainFull chain) (hne : chain.blocks ≠ []) (s : String) :
    (chain.push_and_link off (PackBlock.new off)).find_block_chain_index_of s =
      chain.find_block_chain_index_of s := by
  obtain ⟨eLast, hg, hentries, _, _, _, _⟩ := push_and_link_spec chain off hfull hne
  have hview : (chain.entries.set (chain.num_entries - 1)
      (eLast.set_next_block off)).map entry_view = chain.entries.map entry_view := by
    rw [map_set]
    rw [entry_view_set_next_block]
    apply set_get_self
    rw [List.get?_map, hg]
    rfl
  have hmid := find_block_chain_index_of_eq_of_view
    (PackBlockChain.mk [PackBlock.mk 0
      (chain.entries.set (chain.num_entries - 1) (eLast.set_next_block off))]) chain
    (by rw [one_block_chain_entries]; exact hview) s
  have happ := find_block_chain_index_of_append_nameless
    (PackBlockChain.mk [PackBlock.mk 0
      (chain.entries.set (chain.num_entries - 1) (eLast.set_next_block off))])
    (chain.push_and_link off (PackBlock.new off))
    (PackBlock.new off).entries
    (by rw [hentries, one_block_chain_entries])
    (pack_block_new_names off) s
  rw [happ, hmid]

/-- `find_entry_named = none` verdicts survive `push_and_link` with a
zeroed block. -/
theorem push_and_link_find_entry_none (chain : PackBlockChain) (off : Nat)
    (hfull : ChainFull chain) (hne : chain.blocks ≠ []) (s : String)
    (h : chain.find_entry_named s = none) :
    (chain.push_and_link off (PackBlock.new off)).find_entry_named s = none := by
  obtain ⟨eLast, hg, hentries, _, _, _, _⟩ := push_and_link_spec chain off hfull hne
  unfold PackBlockChain.find_entry_named at h ⊢
  rw [hentries, List.find?_append]
  have h1 : (chain.entries.set (chain.num_entries - 1)
      (eLast.set_next_block off)).find? (fun e => e.name == some s) = none := by
    have hq := find?_map_congr entry_view (fun v => v.1 == some s)
      (chain.entries.set (chain.num_entries - 1) (eLast.set_next_block off))
      chain.entries
      (by
        rw [map_set, entry_view_set_next_block]
        apply set_get_self
        rw [List.get?_map, hg]
        rfl)
    rw [show (chain.entries.find? fun e => e.name == some s) =
        (chain.entries.find? fun a => (fun v => v.1 == some s) (entry_view a)) from rfl] at h
    rw [h] at hq
    cases hfind : (chain.entries.set (chain.num_entries - 1)
        (eLast.set_next_block off)).find? (fun a => (fun v => v.1 == some s) (entry_view a)) with
    | none => exact hfind
    | some e =>
      rw [hfind] at hq
      exact Option.noConfusion hq
  rw [h1]
  have h2 : ((PackBlock.new off).entries).find? (fun e => e.name == some s) = none := by
    rw [List.find?_eq_none]
    intro e he
    rw [pack_block_new_names off e he]
    simp
  rw [h2]
  rfl

/-! ### Writing a named entry into an empty slot -/

theorem set_entry_shape_facts (c : PackBlockChain) (idx : Nat) (e : PackEntry)
    (hfull : ChainFull c) (hne : c.blocks ≠ []) :
    ChainFull (c.set_entry idx e) ∧
    (c.set_entry idx e).chain_index = c.chain_index ∧
    (c.set_entry idx e).blocks ≠ [] ∧
    (c.set_entry idx e).num_entries = c.num_entries := by
  have hs := set_entry_blocks_shape c idx e
  refine ⟨hs.2.2 hfull, hs.2.1, ?_, set_entry_num_entries c idx e⟩
  intro hcon
  have hl := hs.1
  rw [hcon] at hl
  simp only [List.length_nil] at hl
  cases hb : c.blocks with
  | nil => exact hne hb
  | cons hd tl => rw [hb] at hl; simp at hl

/-- Overwriting a nameless slot with an entry carrying a name absent from
the chain preserves every successful lookup. -/
theorem set_named_entry_lookup_preserved (c : PackBlockChain) (idx : Nat)
    (eOld e' : PackEntry) (nm : String)
    (hfull : ChainFull c) (hidx : idx < c.num_entries)
    (heOld : c.entries.get? idx = some eOld) (hOldName : eOld.name = none)
    (hnotin : c.find_entry_named nm = none) (hName : e'.name = some nm) :
    LookupOkPreserved c (c.set_entry idx e') := by
  intro s r h
  have hsne : s ≠ nm := by
    intro hcon
    subst hcon
    unfold PackBlockChain.find_block_chain_index_of at h
    rw [hnotin] at h
    exact Except.noConfusion h
  unfold PackBlockChain.find_block_chain_index_of PackBlockChain.find_entry_named at h ⊢
  rw [set_entry_entries hfull e' hidx]
  rw [find?_set_of_neg _ c.entries idx eOld e' heOld
    (by rw [hOldName]; rfl)
    (by rw [hName]; simp [Ne.symm hsne])]
  exact h

/-- Writing a directory entry for a previously-absent name into an empty
slot makes its name resolve to its `children_position`. -/
theorem set_dir_find (c : PackBlockChain) (idx : Nat) (eOld : PackEntry)
    (p : String) (off : Nat) (nb : Option Nat)
    (hfull : ChainFull c) (hidx : idx < c.num_entries)
    (heOld : c.entries.get? idx = some eOld)
    (hnotin : c.find_entry_named p = none) :
    (c.set_entry idx (PackEntry.new_directory p off nb)).find_block_chain_index_of p =
      .ok off := by
  unfold PackBlockChain.find_block_chain_index_of PackBlockChain.find_entry_named
  rw [set_entry_entries hfull _ hidx]
  rw [find?_set_of_none _ c.entries idx (PackEntry.new_directory p off nb)
    (by rw [chain_entries_length hfull]; exact hidx) hnotin (by simp [PackEntry.name, PackEntry.new_directory])]
  rfl

/-! ### State-level invariant preservation -/

theorem WFState_keep {st st' : Pk2State} (hwf : WFState st)
    (hchains : st'.chains = st.chains) (hlen : st.fileLen ≤ st'.fileLen) : WFState st' := by
  constructor
  · intro kc hkc; exact hwf.full kc (hchains ▸ hkc)
  · intro kc hkc; exact hwf.index_eq kc (hchains ▸ hkc)
  · intro kc hkc; exact hwf.nonempty kc (hchains ▸ hkc)
  · intro kc hkc
    have := hwf.keys_lt kc (hchains ▸ hkc)
    omega

theorem WFState_modify {st st' : Pk2State} {cur : Nat} {chain chain' : PackBlockChain}
    (hwf : WFState st)
    (hget : BlockManager.get st.chains cur = some chain)
    (hchains : st'.chains = BlockManager.modify st.chains cur (fun _ => chain'))
    (hlen : st.fileLen ≤ st'.fileLen)
    (hfull' : ChainFull chain')
    (hidx' : chain'.chain_index = cur)
    (hne' : chain'.blocks ≠ []) : WFState st' := by
  have hcur := hwf.get_full hget
  have hcase : ∀ kc, kc ∈ st'.chains → kc ∈ st.chains ∨ kc = (cur, chain') := by
    intro kc hkc
    rw [hchains] at hkc
    rcases BlockManager.mem_modify st.chains cur _ kc hkc with h | ⟨c0, _, hkc'⟩
    · exact Or.inl h
    · exact Or.inr hkc'
  constructor
  · intro kc hkc
    rcases hcase kc hkc with h | h
    · exact hwf.full kc h
    · rw [h]; exact hfull'
  · intro kc hkc
    rcases hcase kc hkc with h | h
    · exact hwf.index_eq kc h
    · rw [h]; exact hidx'
  · intro kc hkc
    rcases hcase kc hkc with h | h
    · exact hwf.nonempty kc h
    · rw [h]; exact hne'
  · intro kc hkc
    rcases hcase kc hkc with h | h
    · have := hwf.keys_lt kc h; omega
    · rw [h]
      have : cur < st.fileLen := hcur.2.2.2
      omega

theorem WFState_insert {st st' : Pk2State} {k : Nat} {c : PackBlockChain}
    (hwf : WFState st)
    (hchains : st'.chains = BlockManager.insert st.chains k c)
    (hlen : st.fileLen ≤ st'.fileLen)
    (hk : k < st'.fileLen)
    (hfull : ChainFull c) (hidx : c.chain_index = k) (hne : c.blocks ≠ []) :
    WFState st' := by
  have hcase : ∀ kc, kc ∈ st'.chains → kc ∈ st.chains ∨ kc = (k, c) := by
    intro kc hkc
    rw [hchains] at hkc
    rcases List.mem_cons.mp hkc with h | h
    · exact Or.inr h
    · exact Or.inl h
  constructor
  · intro kc hkc
    rcases hcase kc hkc with h | h
    · exact hwf.full kc h
    · rw [h]; exact hfull
  · intro kc hkc
    rcases hcase kc hkc with h | h
    · exact hwf.index_eq kc h
    · rw [h]; exact hidx
  · intro kc hkc
    rcases hcase kc hkc with h | h
    · exact hwf.nonempty kc h
    · rw [h]; exact hne
  · intro kc hkc
    rcases hcase kc hkc with h | h
    · have := hwf.keys_lt kc h; omega
    · rw [h]; exact hk

/-- Modification never introduces new keys: a key unmapped before a
`modify` stays unmapped. -/
theorem get_modify_none {chains : List (Nat × PackBlockChain)} {cur k : Nat}
    {f : PackBlockChain → PackBlockChain}
    (h : BlockManager.get chains k = none) :
    BlockManager.get (BlockManager.modify chains cur f) k = none := by
  by_cases hck : k = cur
  · subst hck
    rw [BlockManager.get_modify_self, h]
    rfl
  · rw [BlockManager.get_modify_ne chains cur k f hck]
    exact h

/-! ### Well-formed paths -/

theorem good_path_cons {c : PathComp} {p : ArchivePath} (h : GoodPath (c :: p)) :
    GoodComp c ∧ GoodPath p :=
  ⟨h c (List.mem_cons_self c p), fun c' hc' => h c' (List.mem_cons_of_mem c hc')⟩

theorem last_ident_cons_cons (c d : PathComp) (l : ArchivePath) :
    last_ident (c :: d :: l) = last_ident (d :: l) := by
  unfold last_ident
  rw [List.getLast?_cons_cons]

/-! ### The freshly allocated directory block -/

theorem dir_block_entries_length (off pidx : Nat) :
    (PackEntry.new_directory PK2_CURRENT_DIR_IDENT off none ::
      PackEntry.new_directory PK2_PARENT_DIR_IDENT pidx none ::
      List.replicate (PK2_FILE_BLOCK_ENTRY_COUNT - 2) PackEntry.defaultEntry).length =
      PK2_FILE_BLOCK_ENTRY_COUNT := by
  simp [List.length_replicate]
  decide

theorem dir_chain_find_none (off pidx : Nat) (s : String)
    (h1 : s ≠ PK2_CURRENT_DIR_IDENT) (h2 : s ≠ PK2_PARENT_DIR_IDENT) :
    (PackBlockChain.from_blocks
      [{ offset := off,
         entries := PackEntry.new_directory PK2_CURRENT_DIR_IDENT off none ::
           PackEntry.new_directory PK2_PARENT_DIR_IDENT pidx none ::
           List.replicate (PK2_FILE_BLOCK_ENTRY_COUNT - 2)
             PackEntry.defaultEntry }]).find_entry_named s = none := by
  unfold PackBlockChain.find_entry_named PackBlockChain.from_blocks
  rw [show (PackBlockChain.mk
      [{ offset := off,
         entries := PackEntry.new_directory PK2_CURRENT_DIR_IDENT off none ::
           PackEntry.new_directory PK2_PARENT_DIR_IDENT pidx none ::
           List.replicate (PK2_FILE_BLOCK_ENTRY_COUNT - 2)
             PackEntry.defaultEntry }]).entries =
      PackEntry.new_directory PK2_CURRENT_DIR_IDENT off none ::
        PackEntry.new_directory PK2_PARENT_DIR_IDENT pidx none ::
        List.replicate (PK2_FILE_BLOCK_ENTRY_COUNT - 2) PackEntry.defaultEntry from
    one_block_chain_entries off _]
  rw [List.find?_cons_of_neg _ (by
    simp only [PackEntry.new_directory, PackEntry.name, beq_iff_eq, Option.some.injEq]
    exact fun hcon => h1 hcon.symm)]
  rw [List.find?_cons_of_neg _ (by
    simp only [PackEntry.new_directory, PackEntry.name, beq_iff_eq, Option.some.injEq]
    exact fun hcon => h2 hcon.symm)]
  rw [List.find?_eq_none]
  intro e he
  rw [List.eq_of_mem_replicate he]
  simp [PackEntry.defaultEntry, PackEntry.name]

theorem dir_chain_shape (off pidx : Nat) :
    ChainFull (PackBlockChain.from_blocks
      [{ offset := off,
         entries := PackEntry.new_directory PK2_CURRENT_DIR_IDENT off none ::
           PackEntry.new_directory PK2_PARENT_DIR_IDENT pidx none ::
           List.replicate (PK2_FILE_BLOCK_ENTRY_COUNT - 2) PackEntry.defaultEntry }]) ∧
    (PackBlockChain.from_blocks
      [{ offset := off,
         entries := PackEntry.new_directory PK2_CURRENT_DIR_IDENT off none ::
           PackEntry.new_directory PK2_PARENT_DIR_IDENT pidx none ::
           List.replicate (PK2_FILE_BLOCK_ENTRY_COUNT - 2)
             PackEntry.defaultEntry }]).chain_index = off ∧
    (PackBlockChain.from_blocks
      [{ offset := off,
         entries := PackEntry.new_directory PK2_CURRENT_DIR_IDENT off none ::
           PackEntry.new_directory PK2_PARENT_DIR_IDENT pidx none ::
           List.replicate (PK2_FILE_BLOCK_ENTRY_COUNT - 2)
             PackEntry.defaultEntry }]).blocks ≠ [] := by
  refine ⟨?_, rfl, by simp [PackBlockChain.from_blocks]⟩
  intro b hb
  unfold PackBlockChain.from_blocks at hb
  rw [List.mem_singleton.mp hb]
  exact dir_block_entries_length off pidx

/-! ### The creation loop: inductive specification -/

/-- The directory-creation step of the loop: allocate a child chain for the
pending component `s`, insert it, and continue with the remainder — the
continuation inherits every guarantee of the loop specification. -/
theorem mkdir_recurse_spec (rest' : ArchivePath) (c2 : PathComp)
    (ih : LoopSpecHolds rest') (s : String) (st' : Pk2State) (cur : Nat)
    (chain' : PackBlockChain) (idx' : Nat) (eOld : PackEntry)
    (hwf' : WFState st')
    (hgood : GoodPath (c2 :: rest'))
    (hget' : BlockManager.get st'.chains cur = some chain')
    (hidx' : idx' < chain'.num_entries)
    (heOld : chain'.entries.get? idx' = some eOld)
    (hOldName : eOld.name = none)
    (hnotin' : chain'.find_entry_named s = none) :
    ∃ stF kF iF,
      (match allocate_new_block_chain st' cur chain' s idx' with
       | (st2, newChain) =>
         create_entry_at_loop
           { st2 with chains := BlockManager.insert st2.chains newChain.chain_index newChain }
           newChain.chain_index (c2 :: rest')) = .ok (stF, kF, iF) ∧
      WFState stF ∧
      ResolveOkPreserved st'.chains stF.chains ∧
      st'.fileLen ≤ stF.fileLen ∧
      BlockManager.resolve_path_to_block_chain_index_at stF.chains cur
        (.normal s :: (c2 :: rest').dropLast) = .ok kF ∧
      ∃ chF eF,
        BlockManager.get stF.chains kF = some chF ∧
        chF.find_entry_named (last_ident (c2 :: rest')) = none ∧
        iF < chF.num_entries ∧
        chF.entries.get? iF = some eF ∧
        eF.name = none := by
  obtain ⟨hfull', hidx_eq', hne', hcurlt⟩ := hwf'.get_full hget'
  obtain ⟨st2, newChain, halloc⟩ :
      ∃ st2 newChain, allocate_new_block_chain st' cur chain' s idx' = (st2, newChain) :=
    ⟨_, _, rfl⟩
  have hOldEq : (chain'.get idx').getD PackEntry.defaultEntry = eOld := by
    rw [chain_get_eq_entries_get hfull', heOld]
    rfl
  have hch2 : st2.chains = BlockManager.modify st'.chains cur
      (fun _ => chain'.set_entry idx'
        (PackEntry.new_directory s st'.fileLen eOld.next_block)) := by
    have h1 : st2 = (allocate_new_block_chain st' cur chain' s idx').1 := by rw [halloc]
    rw [h1, ← hOldEq]
    rfl
  have hlen2 : st2.fileLen = st'.fileLen + PK2_FILE_BLOCK_SIZE := by
    have h1 : st2 = (allocate_new_block_chain st' cur chain' s idx').1 := by rw [halloc]
    rw [h1]
    rfl
  have hnc : newChain = PackBlockChain.from_blocks
      [{ offset := st'.fileLen,
         entries := PackEntry.new_directory PK2_CURRENT_DIR_IDENT st'.fileLen none ::
           PackEntry.new_directory PK2_PARENT_DIR_IDENT chain'.chain_index none ::
           List.replicate (PK2_FILE_BLOCK_ENTRY_COUNT - 2) PackEntry.defaultEntry }] := by
    have h1 : newChain = (allocate_new_block_chain st' cur chain' s idx').2 := by rw [halloc]
    rw [h1]
    rfl
  have hshape := set_entry_shape_facts chain' idx'
    (PackEntry.new_directory s st'.fileLen eOld.next_block) hfull' hne'
  have hlp := set_named_entry_lookup_preserved chain' idx' eOld
    (PackEntry.new_directory s st'.fileLen eOld.next_block) s hfull' hidx' heOld hOldName
    hnotin' rfl
  have hfinddir := set_dir_find chain' idx' eOld s st'.fileLen eOld.next_block hfull'
    hidx' heOld hnotin'
  have hwf2 : WFState st2 :=
    WFState_modify hwf' hget' hch2 (by omega) hshape.1 (hshape.2.1.trans hidx_eq')
      hshape.2.2.1
  have hpres2 : ResolveOkPreserved st'.chains st2.chains := by
    rw [hch2]
    exact resolve_ok_preserved_modify st'.chains cur chain' _ hget' hlp
  have hget2cur : BlockManager.get st2.chains cur =
      some (chain'.set_entry idx'
        (PackEntry.new_directory s st'.fileLen eOld.next_block)) := by
    rw [hch2, BlockManager.get_modify_self, hget']
    rfl
  have hfresh2 : BlockManager.get st2.chains st'.fileLen = none := by
    rw [hch2]
    exact get_modify_none (get_fresh_none hwf' (le_refl _))
  have hncidx : newChain.chain_index = st'.fileLen := by rw [hnc]; rfl
  have hdir := dir_chain_shape st'.fileLen chain'.chain_index
  have hncfull : ChainFull newChain := by rw [hnc]; exact hdir.1
  have hncne : newChain.blocks ≠ [] := by rw [hnc]; exact hdir.2.2
  obtain ⟨s2, hc2eq, hs21, hs22⟩ := (good_path_cons hgood).1
  have hncnone : newChain.find_entry_named c2.ident = none := by
    rw [hnc, hc2eq]
    exact dir_chain_find_none _ _ s2 hs21 hs22
  have hbs : 0 < PK2_FILE_BLOCK_SIZE := by decide
  have hwf3 : WFState
      { st2 with chains := BlockManager.insert st2.chains newChain.chain_index newChain } :=
    WFState_insert hwf2 rfl (le_refl _)
      (by show newChain.chain_index < st2.fileLen; rw [hncidx, hlen2]; omega)
      hncfull rfl hncne
  have hpres3 : ResolveOkPreserved st2.chains
      (BlockManager.insert st2.chains newChain.chain_index newChain) :=
    resolve_ok_preserved_insert st2.chains _ newChain (by rw [hncidx]; exact hfresh2)
  have hget3new : BlockManager.get
      (BlockManager.insert st2.chains newChain.chain_index newChain)
      newChain.chain_index = some newChain :=
    BlockManager.get_insert_self st2.chains _ newChain
  obtain ⟨stF, kF, iF, hloopF, hwfF, hpresF, hlenF, hresF, chF, eF, hgetF, hnamF, hiF,
      hgeF, hnmF⟩ :=
    ih c2 { st2 with chains := BlockManager.insert st2.chains newChain.chain_index newChain }
      newChain.chain_index newChain hwf3 hgood hget3new hncnone
  refine ⟨stF, kF, iF, ?_, hwfF, ?_, ?_, ?_, chF, eF, hgetF, hnamF, hiF, hgeF, hnmF⟩
  · rw [halloc]
    exact hloopF
  · exact resolve_ok_preserved_trans hpres2 (resolve_ok_preserved_trans hpres3 hpresF)
  · have : ({ st2 with chains :=
        BlockManager.insert st2.chains newChain.chain_index newChain } : Pk2State).fileLen =
        st2.fileLen := rfl
    omega
  · have hres1 : BlockManager.resolve_path_to_block_chain_index_at
        (BlockManager.insert st2.chains newChain.chain_index newChain) cur
        [PathComp.normal s] = .ok newChain.chain_index := by
      rw [resolve_cons]
      have hcurne : cur ≠ newChain.chain_index := by rw [hncidx]; omega
      rw [BlockManager.get_insert_ne st2.chains newChain.chain_index cur newChain hcurne]
      rw [hget2cur]
      have hident : (PathComp.normal s).ident = s := rfl
      rw [hident]
      simp only [hfinddir]
      rw [BlockManager.resolve_path_to_block_chain_index_at]
      rw [hncidx]
    have hres1F := hpresF cur [PathComp.normal s] newChain.chain_index hres1
    rw [show (PathComp.normal s :: (c2 :: rest').dropLast) =
      [PathComp.normal s] ++ (c2 :: rest').dropLast from rfl]
    rw [resolve_append]
    simp only [hres1F]
    exact hresF

/-- Everything the loop needs to know about the chain-is-full branch. -/
theorem append_branch_facts (st : Pk2State) (cur : Nat) (chain : PackBlockChain)
    (hwf : WFState st) (hget : BlockManager.get st.chains cur = some chain) :
    WFState (append_slot_state st cur chain) ∧
    ResolveOkPreserved st.chains (append_slot_state st cur chain).chains ∧
    st.fileLen ≤ (append_slot_state st cur chain).fileLen ∧
    BlockManager.get (append_slot_state st cur chain).chains cur =
      some (chain.push_and_link st.fileLen (PackBlock.new st.fileLen)) ∧
    (chain.push_and_link st.fileLen (PackBlock.new st.fileLen)).chain_index = cur ∧
    ChainFull (chain.push_and_link st.fileLen (PackBlock.new st.fileLen)) ∧
    (chain.push_and_link st.fileLen (PackBlock.new st.fileLen)).blocks ≠ [] ∧
    chain.num_entries <
      (chain.push_and_link st.fileLen (PackBlock.new st.fileLen)).num_entries ∧
    (chain.push_and_link st.fileLen (PackBlock.new st.fileLen)).entries.get?
      chain.num_entries = some PackEntry.defaultEntry ∧
    PackEntry.defaultEntry.name = none ∧
    (∀ nm, chain.find_entry_named nm = none →
      (chain.push_and_link st.fileLen (PackBlock.new st.fileLen)).find_entry_named nm =
        none) := by
  obtain ⟨hfull, hidx_eq, hne, hcurlt⟩ := hwf.get_full hget
  obtain ⟨eLast, hgl, hentries, hfull1, hcidx1, hne1, hnum1⟩ :=
    push_and_link_spec chain st.fileLen hfull hne
  have hch3 : (append_slot_state st cur chain).chains = BlockManager.modify st.chains cur
      (fun _ => chain.push_and_link st.fileLen (PackBlock.new st.fileLen)) := rfl
  have hlen3 : (append_slot_state st cur chain).fileLen =
      st.fileLen + PK2_FILE_BLOCK_SIZE := rfl
  have hlelen : st.fileLen ≤ (append_slot_state st cur chain).fileLen := by
    rw [hlen3]; omega
  have hwf3 : WFState (append_slot_state st cur chain) :=
    WFState_modify hwf hget hch3 hlelen hfull1 (hcidx1.trans hidx_eq) hne1
  have hlp : LookupOkPreserved chain
      (chain.push_and_link st.fileLen (PackBlock.new st.fileLen)) := by
    intro s r h
    rw [push_and_link_find_bcio chain st.fileLen hfull hne]
    exact h
  have hget?slot :
      (chain.push_and_link st.fileLen (PackBlock.new st.fileLen)).entries.get?
        chain.num_entries = some PackEntry.defaultEntry := by
    rw [hentries]
    rw [List.get?_append_right (by
      rw [List.length_set, chain_entries_length hfull])]
    rw [List.length_set, chain_entries_length hfull, Nat.sub_self]
    rfl
  refine ⟨hwf3, ?_, hlelen, ?_, hcidx1.trans hidx_eq, hfull1, hne1,
    (by rw [hnum1]; have h20 : 0 < PK2_FILE_BLOCK_ENTRY_COUNT := (by decide); omega),
    hget?slot, rfl, ?_⟩
  · rw [hch3]
    exact resolve_ok_preserved_modify st.chains cur chain _ hget hlp
  · rw [hch3, BlockManager.get_modify_self, hget]
    rfl
  · intro nm h
    exact push_and_link_find_entry_none chain st.fileLen hfull hne nm h

/-- The loop specification for a terminal component. -/
theorem loop_spec_nil : LoopSpecHolds [] := by
  intro comp st cur chain hwf hgood hget hnotin
  obtain ⟨s, hcomp, hs1, hs2⟩ := (good_path_cons hgood).1
  subst hcomp
  obtain ⟨hfull, hidx_eq, hne, hcurlt⟩ := hwf.get_full hget
  cases hpos : position_is_empty chain.entries with
  | some idx =>
    obtain ⟨e, hge, hemp⟩ := position_is_empty_spec chain.entries idx hpos
    have hloop : create_entry_at_loop st cur [PathComp.normal s] =
        .ok (st, chain.chain_index, idx) := by
      unfold create_entry_at_loop
      simp only [hget, hpos]
    have hidxlt : idx < chain.num_entries := by
      by_contra hcon
      have hnone : chain.entries.get? idx = none := List.get?_eq_none.mpr (by
        rw [chain_entries_length hfull]
        omega)
      rw [hnone] at hge
      exact Option.noConfusion hge
    refine ⟨st, chain.chain_index, idx, hloop, hwf, resolve_ok_preserved_refl _, le_refl _,
      ?_, chain, e, ?_, hnotin, hidxlt, hge, name_none_of_is_empty hemp⟩
    · rw [hidx_eq]
      rfl
    · rw [hidx_eq]
      exact hget
  | none =>
    obtain ⟨hwf3, hpres3, hle3, hget3, hcidx3, hfull3, hne3, hidxlt3, hge3, hnm3,
        htrans3⟩ := append_branch_facts st cur chain hwf hget
    have hloop : create_entry_at_loop st cur [PathComp.normal s] =
        .ok (append_slot_state st cur chain,
          (chain.push_and_link st.fileLen (PackBlock.new st.fileLen)).chain_index,
          chain.num_entries) := by
      unfold create_entry_at_loop
      simp only [hget, hpos]
      rfl
    refine ⟨append_slot_state st cur chain,
      (chain.push_and_link st.fileLen (PackBlock.new st.fileLen)).chain_index,
      chain.num_entries, hloop, hwf3, hpres3, hle3, ?_,
      chain.push_and_link st.fileLen (PackBlock.new st.fileLen), PackEntry.defaultEntry,
      ?_, htrans3 s hnotin, hidxlt3, hge3, rfl⟩
    · rw [hcidx3]
      rfl
    · rw [hcidx3]
      exact hget3

/-- The loop specification for a non-terminal component, given it for the
remainder. -/
theorem loop_spec_cons (c2 : PathComp) (rest' : ArchivePath) (ih : LoopSpecHolds rest') :
    LoopSpecHolds (c2 :: rest') := by
  intro comp st cur chain hwf hgood hget hnotin
  obtain ⟨s, hcomp, hs1, hs2⟩ := (good_path_cons hgood).1
  subst hcomp
  have hgoodtail : GoodPath (c2 :: rest') := (good_path_cons hgood).2
  obtain ⟨hfull, hidx_eq, hne, hcurlt⟩ := hwf.get_full hget
  cases hpos : position_is_empty chain.entries with
  | some idx =>
    obtain ⟨e, hge, hemp⟩ := position_is_empty_spec chain.entries idx hpos
    have hidxlt : idx < chain.num_entries := by
      by_contra hcon
      have hnone : chain.entries.get? idx = none := List.get?_eq_none.mpr (by
        rw [chain_entries_length hfull]
        omega)
      rw [hnone] at hge
      exact Option.noConfusion hge
    have hloop : create_entry_at_loop st cur (PathComp.normal s :: c2 :: rest') =
        (match allocate_new_block_chain st cur chain s idx with
         | (st2, newChain) =>
           create_entry_at_loop
             { st2 with chains :=
                 BlockManager.insert st2.chains newChain.chain_index newChain }
             newChain.chain_index (c2 :: rest')) := by
      conv_lhs => unfold create_entry_at_loop
      simp only [hget, hpos]
    obtain ⟨stF, kF, iF, hmk, hwfF, hpresF, hlenF, hresF, hrest⟩ :=
      mkdir_recurse_spec rest' c2 ih s st cur chain idx e hwf hgoodtail hget hidxlt hge
        (name_none_of_is_empty hemp) hnotin
    refine ⟨stF, kF, iF, ?_, hwfF, hpresF, hlenF, hresF, ?_⟩
    · rw [hloop]
      exact hmk
    · rw [show last_ident (PathComp.normal s :: c2 :: rest') = last_ident (c2 :: rest') from
        last_ident_cons_cons _ _ _]
      exact hrest
  | none =>
    obtain ⟨hwf3, hpres3, hle3, hget3, hcidx3, hfull3, hne3, hidxlt3, hge3, hnm3,
        htrans3⟩ := append_branch_facts st cur chain hwf hget
    have hloop : create_entry_at_loop st cur (PathComp.normal s :: c2 :: rest') =
        (match allocate_new_block_chain (append_slot_state st cur chain) cur
            (chain.push_and_link st.fileLen (PackBlock.new st.fileLen)) s
            chain.num_entries with
         | (st2, newChain) =>
           create_entry_at_loop
             { st2 with chains :=
                 BlockManager.insert st2.chains newChain.chain_index newChain }
             newChain.chain_index (c2 :: rest')) := by
      conv_lhs => unfold create_entry_at_loop
      simp only [hget, hpos]
      rfl
    obtain ⟨stF, kF, iF, hmk, hwfF, hpresF, hlenF, hresF, hrest⟩ :=
      mkdir_recurse_spec rest' c2 ih s (append_slot_state st cur chain) cur
        (chain.push_and_link st.fileLen (PackBlock.new st.fileLen)) chain.num_entries
        PackEntry.defaultEntry hwf3 hgoodtail hget3 hidxlt3 hge3 rfl (htrans3 s hnotin)
    refine ⟨stF, kF, iF, ?_, hwfF, ?_, ?_, hresF, ?_⟩
    · rw [hloop]
      exact hmk
    · exact resolve_ok_preserved_trans hpres3 hpresF
    · omega
    · rw [show last_ident (PathComp.normal s :: c2 :: rest') = last_ident (c2 :: rest') from
        last_ident_cons_cons _ _ _]
      exact hrest

/-- The loop specification holds for every remainder. -/
theorem create_entry_at_loop_spec : ∀ rest : ArchivePath, LoopSpecHolds rest
  | [] => loop_spec_nil
  | c2 :: rest' => loop_spec_cons c2 rest' (create_entry_at_loop_spec rest')

/-- A `modify` only ever applies its function to the stored chain, so it
can be replaced by the constant update with that value. -/
theorem modify_eq_const :
    ∀ (chains : List (Nat × PackBlockChain)) (k : Nat) (c : PackBlockChain)
      (f : PackBlockChain → PackBlockChain),
      BlockManager.get chains k = some c →
      BlockManager.modify chains k f = BlockManager.modify chains k (fun _ => f c)
  | [], _, _, _, hget => Option.noConfusion hget
  | (k', c') :: rest, k, c, f, hget => by
    unfold BlockManager.modify
    by_cases hk : k' = k
    · subst hk
      have hc : c' = c := by
        unfold BlockManager.get at hget
        rw [List.find?_cons_of_pos _ (by simp)] at hget
        exact Option.some.inj hget
      rw [hc, if_pos rfl, if_pos rfl]
    · rw [if_neg hk, if_neg hk]
      have hget' : BlockManager.get rest k = some c := by
        unfold BlockManager.get at hget ⊢
        rw [List.find?_cons_of_neg _ (by simp [hk])] at hget
        exact hget
      rw [modify_eq_const rest k c f hget']

/-! ## C7 — create-then-resolve -/

/-- C7: on a well-formed archive state, after `create_file` succeeds on a
path of ordinary normal components, `open_file` on the same path succeeds
with exactly the handle `create_file` returned, and path resolution finds
at that slot a file-kind entry named by the path's final component. -/
theorem c7_create_then_resolve (st st' : Pk2State) (p : ArchivePath) (fname : String)
    (c i : Nat)
    (hwf : WFState st)
    (hgood : GoodPath p)
    (hname : file_name p = some fname)
    (hok : create_file st p = .ok (st', c, i)) :
    open_file st' p = .ok (c, i) ∧
    ∃ nb,
      BlockManager.resolve_path_to_entry_and_parent st'.chains PK2_ROOT_BLOCK p =
        .ok (c, i, PackEntry.file fname 0 0 nb) ∧
      (PackEntry.file fname 0 0 nb).is_file = true ∧
      (PackEntry.file fname 0 0 nb).name = some fname := by
  -- peel create_file
  unfold create_file at hok
  rw [hname] at hok
  cases hca : create_entry_at st PK2_ROOT_BLOCK p with
  | error e => rw [hca] at hok; exact Except.noConfusion hok
  | ok r =>
    obtain ⟨st1, c1, i1⟩ := r
    rw [hca] at hok
    cases hge : get_entry st1 c1 i1 with
    | none =>
      simp only [hge] at hok
      exact Except.noConfusion hok
    | some e =>
      simp only [hge] at hok
      injection hok with hok1
      injection hok1 with hA hB
      injection hB with hB hC
      subst hB
      subst hC
      subst hA
      -- peel create_entry_at
      unfold create_entry_at at hca
      cases hval : BlockManager.validate_dir_path_until st.chains PK2_ROOT_BLOCK p with
      | error e' => rw [hval] at hca; exact Except.noConfusion hca
      | ok r' =>
        obtain ⟨c0, tail⟩ := r'
        rw [hval] at hca
        simp only at hca
        obtain ⟨pre, hsplit, hrespre, htail⟩ :=
          validate_spec st.chains p PK2_ROOT_BLOCK c0 tail hval
        cases htl : tail with
        | nil =>
          subst htl
          exact absurd hca (by simp [create_entry_at_loop])
        | cons comp restT =>
          subst htl
          obtain ⟨ch0, hgetc0, hnotin0⟩ := htail comp restT rfl
          have hgoodtail : GoodPath (comp :: restT) := by
            intro x hx
            exact hgood x (by rw [hsplit]; exact List.mem_append_right pre hx)
          obtain ⟨stF, kF, iF, hloopF, hwfF, hpresF, hlenF, hresF, chF, eF, hgetF,
              hnamF, hltnum, hgeF, hnmF⟩ :=
            create_entry_at_loop_spec restT comp st c0 ch0 hwf hgoodtail hgetc0 hnotin0
          rw [hloopF] at hca
          injection hca with hca1
          injection hca1 with h1 h2
          injection h2 with h2 h3
          subst h1
          subst h2
          subst h3
          -- identify the final component
          have hlastp : p.getLast? = (comp :: restT).getLast? := by
            rw [hsplit]
            exact List.getLast?_append_of_ne_nil pre (by simp)
          obtain ⟨sLast, hgl, hlast_ident⟩ : ∃ sLast,
              (comp :: restT).getLast? = some (.normal sLast) ∧
              last_ident (comp :: restT) = sLast := by
            unfold file_name at hname
            rw [hlastp] at hname
            cases hg : (comp :: restT).getLast? with
            | none => simp at hg
            | some cl =>
              rw [hg] at hname
              cases cl with
              | normal sl =>
                refine ⟨sl, rfl, ?_⟩
                unfold last_ident
                rw [hg]
                rfl
              | curDir => exact Option.noConfusion hname
              | parentDir => exact Option.noConfusion hname
          have hfname : sLast = fname := by
            unfold file_name at hname
            rw [hlastp, hgl] at hname
            replace hname : some sLast = some fname := hname
            exact Option.some.inj hname
          rw [hfname] at hgl hlast_ident
          -- bridge get_entry to the flattened view
          obtain ⟨hfullF, hidxF, hneF, hltF⟩ := hwfF.get_full hgetF
          have hgeE : e = eF := by
            unfold get_entry at hge
            rw [hgetF] at hge
            simp only [Option.some_bind] at hge
            rw [chain_get_eq_entries_get hfullF, hgeF] at hge
            injection hge with h
            exact h.symm
          subst hgeE
          have hnotinF : chF.find_entry_named fname = none := by
            rw [← hlast_ident]
            exact hnamF
          -- the final state
          have hch' : (set_entry_state stF kF iF
              (PackEntry.new_file fname 0 0 e.next_block)).chains =
              BlockManager.modify stF.chains kF
                (fun _ => chF.set_entry iF (PackEntry.new_file fname 0 0 e.next_block)) := by
            show BlockManager.modify stF.chains kF
              (fun ch => ch.set_entry iF (PackEntry.new_file fname 0 0 e.next_block)) = _
            exact modify_eq_const stF.chains kF chF _ hgetF
          have hlp : LookupOkPreserved chF
              (chF.set_entry iF (PackEntry.new_file fname 0 0 e.next_block)) :=
            set_named_entry_lookup_preserved chF iF e _ fname hfullF hltnum hgeF hnmF
              hnotinF rfl
          have hpres' : ResolveOkPreserved stF.chains
              (set_entry_state stF kF iF
                (PackEntry.new_file fname 0 0 e.next_block)).chains := by
            rw [hch']
            exact resolve_ok_preserved_modify stF.chains kF chF _ hgetF hlp
          have hpresAll : ResolveOkPreserved st.chains
              (set_entry_state stF kF iF
                (PackEntry.new_file fname 0 0 e.next_block)).chains :=
            resolve_ok_preserved_trans hpresF hpres'
          -- resolve the prefix of p in the final state
          have hdropp : p.dropLast = pre ++ (comp :: restT).dropLast := by
            rw [hsplit]
            exact List.dropLast_append_of_ne_nil pre (by simp)
          have hres_pre := hpresAll PK2_ROOT_BLOCK pre c0 hrespre
          have hres_tail := hpres' c0 (comp :: restT).dropLast kF hresF
          have hres_all : BlockManager.resolve_path_to_block_chain_index_at
              (set_entry_state stF kF iF
                (PackEntry.new_file fname 0 0 e.next_block)).chains
              PK2_ROOT_BLOCK p.dropLast = .ok kF := by
            rw [hdropp, resolve_append]
            simp only [hres_pre]
            exact hres_tail
          -- the stored chain in the final state
          have hget' : BlockManager.get
              (set_entry_state stF kF iF
                (PackEntry.new_file fname 0 0 e.next_block)).chains kF =
              some (chF.set_entry iF (PackEntry.new_file fname 0 0 e.next_block)) := by
            rw [hch', BlockManager.get_modify_self, hgetF]
            rfl
          have hsetent : (chF.set_entry iF
              (PackEntry.new_file fname 0 0 e.next_block)).entries =
              chF.entries.set iF (PackEntry.new_file fname 0 0 e.next_block) :=
            set_entry_entries hfullF _ hltnum
          have henum : enumerate_find_name
              (chF.set_entry iF (PackEntry.new_file fname 0 0 e.next_block)).entries
              (some fname) =
              some (iF, PackEntry.new_file fname 0 0 e.next_block) := by
            rw [hsetent]
            exact enumerate_find_name_set chF.entries iF _ fname
              (by rw [chain_entries_length hfullF]; exact hltnum)
              hnotinF rfl
          -- resolve the whole path to the entry
          have hresEP : BlockManager.resolve_path_to_entry_and_parent
              (set_entry_state stF kF iF
                (PackEntry.new_file fname 0 0 e.next_block)).chains
              PK2_ROOT_BLOCK p =
              .ok (kF, iF, PackEntry.new_file fname 0 0 e.next_block) := by
            unfold BlockManager.resolve_path_to_entry_and_parent
            rw [hlastp.trans hgl]
            simp only [hres_all, hget']
            rw [show (PathComp.normal fname).ident = fname from rfl]
            simp only [henum]
          refine ⟨?_, e.next_block, hresEP, rfl, rfl⟩
          unfold open_file
          rw [hresEP]
          rfl

/-- Witness for C7: creating `/b` on the fresh archive yields handle
`(256, 1)`, opening `/b` afterwards returns that same handle, and
resolution finds the file entry named `b` at that slot. -/
theorem c7_create_then_resolve_witness :
    open_file (set_entry_state freshState PK2_ROOT_BLOCK 1
        (PackEntry.new_file "b" 0 0 (PackEntry.empty none).next_block))
      [PathComp.normal "b"] = .ok (PK2_ROOT_BLOCK, 1) ∧
    ∃ nb,
      BlockManager.resolve_path_to_entry_and_parent
        (set_entry_state freshState PK2_ROOT_BLOCK 1
          (PackEntry.new_file "b" 0 0 (PackEntry.empty none).next_block)).chains
        PK2_ROOT_BLOCK [PathComp.normal "b"] =
        .ok (PK2_ROOT_BLOCK, 1, PackEntry.file "b" 0 0 nb) ∧
      (PackEntry.file "b" 0 0 nb).is_file = true ∧
      (PackEntry.file "b" 0 0 nb).name = some "b" :=
  c7_create_then_resolve freshState
    (set_entry_state freshState PK2_ROOT_BLOCK 1
      (PackEntry.new_file "b" 0 0 (PackEntry.empty none).next_block))
    [PathComp.normal "b"] "b" PK2_ROOT_BLOCK 1
    ⟨by
      intro kc hkc
      simp only [freshState, List.mem_singleton] at hkc
      subst hkc
      intro b hb
      simp only [List.mem_singleton] at hb
      subst hb
      decide,
     by
      intro kc hkc
      simp only [freshState, List.mem_singleton] at hkc
      subst hkc
      decide,
     by
      intro kc hkc
      simp only [freshState, List.mem_singleton] at hkc
      subst hkc
      decide,
     by
      intro kc hkc
      simp only [freshState, List.mem_singleton] at hkc
      subst hkc
      decide⟩
    (by
      intro x hx
      simp only [List.mem_singleton] at hx
      subst hx
      exact ⟨"b", rfl, by decide, by decide⟩)
    rfl rfl

end Pk2Spec
